import Mathlib

/-!
Verification development for the maplify title cross-referencing library.

The embedding translates, from `src/src/core/similarity.ts` and the mapper
class (the unnamed source file): `sanitizeTitle`, `FindBestMatchByTitles`,
the `Maplify` constructor, `extractData` (API mode) and `mapTitles`.
The external `string-similarity` npm capability (spec section 6) is embedded
as the character-bigram Dice metric it names.  Strings are modelled as their
`List Char` code-point sequences; JavaScript `toLowerCase` is modelled on the
ASCII range (all letters appearing in the claims are ASCII; other code points
such as katakana are fixed by both the model and JavaScript).
Similarity scores are exact rationals.
-/

/-- JavaScript `String.prototype.toLowerCase`, modelled on the ASCII range:
code points 65..90 map to 97..122, everything else is fixed. -/
def jsToLower (c : Char) : Char :=
  if 65 ≤ c.toNat ∧ c.toNat ≤ 90 then Char.ofNat (c.toNat + 32) else c

/-- The JavaScript whitespace class (`\s`, also used by `String.prototype.trim`):
space, tab, line terminators, vertical tab, form feed, NBSP, and the Unicode
space separators. -/
def isJsWs (c : Char) : Bool :=
  c == ' ' || c == '\t' || c == '\n' || c == '\r' ||
  c.toNat == 11 || c.toNat == 12 || c.toNat == 160 || c.toNat == 0x1680 ||
  (0x2000 ≤ c.toNat && c.toNat ≤ 0x200a) ||
  c.toNat == 0x2028 || c.toNat == 0x2029 || c.toNat == 0x202f ||
  c.toNat == 0x205f || c.toNat == 0x3000 || c.toNat == 0xfeff

/-- The alternatives of the first qualifier regex in `sanitizeTitle`
(`/ *(\(dub\)|\(sub\)|\(uncensored\)|\(uncut\)|\(subbed\)|\(dubbed\))/i`),
in the order the regex engine tries them. -/
def qualPats : List (List Char) :=
  ["(dub)".data, "(sub)".data, "(uncensored)".data, "(uncut)".data,
   "(subbed)".data, "(dubbed)".data]

/-- Case-insensitive prefix test: the pattern is given in lowercase and each
subject character is folded with `jsToLower`, as the `i` regex flag does for
ASCII patterns. -/
def isPrefixCI : List Char → List Char → Bool
  | [], _ => true
  | _ :: _, [] => false
  | p :: ps, c :: cs => jsToLower c == p && isPrefixCI ps cs

/-- Match attempt of the first qualifier regex at the head of `s`: the greedy
` *` consumes the maximal run of spaces (backtracking cannot help because every
alternative starts with a parenthesis, which is not a space), then one of the
alternatives must match.  Returns the total matched length. -/
def matchQualAt (s : List Char) : Option Nat :=
  match qualPats.find? (fun p => isPrefixCI p (s.drop (s.takeWhile (· == ' ')).length)) with
  | some p => some ((s.takeWhile (· == ' ')).length + p.length)
  | none => none

/-- Leftmost-match replacement by the empty string for the qualifier regex
(no `g` flag: only the first match is removed). -/
def goQual : List Char → List Char
  | [] => []
  | c :: cs =>
    match matchQualAt (c :: cs) with
    | some n => (c :: cs).drop n
    | none => c :: goQual cs

/-- Match attempt of `/ *\([^)]+audio\)/i` at the head of `s`.  After the
greedy spaces and the opening parenthesis, `[^)]+audio` must span exactly the
characters up to the first closing parenthesis, so the segment before that
parenthesis must have length at least 6 and end (case-insensitively) in
`audio`. -/
def audioSeg (rest2 : List Char) : List Char := rest2.takeWhile (· != ')')

/-- Whether the parenthesized segment `rest2` (the part after an opening
parenthesis) starts a match of `\([^)]+audio\)`: a closing parenthesis
exists, and the segment before it is at least six characters long and ends
case-insensitively in `audio`. -/
def audioSegOk (rest2 : List Char) : Prop :=
  (audioSeg rest2).length < rest2.length ∧ 6 ≤ (audioSeg rest2).length ∧
    ((audioSeg rest2).drop ((audioSeg rest2).length - 5)).map jsToLower = "audio".data

instance (rest2 : List Char) : Decidable (audioSegOk rest2) := by
  unfold audioSegOk; infer_instance

def matchAudioAt (s : List Char) : Option Nat :=
  match s.drop (s.takeWhile (· == ' ')).length with
  | '(' :: rest2 =>
    if audioSegOk rest2
    then some ((s.takeWhile (· == ' ')).length + 1 + (audioSeg rest2).length + 1)
    else none
  | _ => none

/-- Leftmost-match replacement by the empty string for the audio regex. -/
def goAudio : List Char → List Char
  | [] => []
  | c :: cs =>
    match matchAudioAt (c :: cs) with
    | some n => (c :: cs).drop n
    | none => c :: goAudio cs

/-- Match attempt of `/ BD( \x7c$)/i` at the head of `s`: a space, `bd`
case-insensitively, then either a space (consumed by the capture group) or the
end of the string. -/
def matchBdAt : List Char → Option Nat
  | c :: b :: d :: rest =>
    if c = ' ' ∧ jsToLower b = 'b' ∧ jsToLower d = 'd' then
      match rest with
      | ' ' :: _ => some 4
      | [] => some 3
      | _ => none
    else none
  | _ => none

/-- Leftmost-match replacement by the empty string for the BD regex. -/
def goBd : List Char → List Char
  | [] => []
  | c :: cs =>
    match matchBdAt (c :: cs) with
    | some n => (c :: cs).drop n
    | none => c :: goBd cs

/-- JavaScript `String.prototype.trim`: strip leading and trailing `isJsWs`
characters. -/
def jsTrim (l : List Char) : List Char :=
  ((l.dropWhile isJsWs).reverse.dropWhile isJsWs).reverse

/-- `sanitizeTitle` from `src/src/core/similarity.ts`.  `none` models
JavaScript `undefined`; the `!title` guard is also taken by the empty string.
The three regex replacements (first match only), `trim` and the truncation to
99 characters are applied in source order after lowercasing. -/
def sanitizeTitle : Option String → Option String
  | none => none
  | some t =>
    if t = "" then none
    else
      some (String.mk ((jsTrim (goBd (goAudio (goQual (t.data.map jsToLower))))).take 99))

/-- Head test for the three-character sequence space, `b`, `d` (the literal
core of the BD regex on an already-lowercased string). -/
def spaceBdAtHead : List Char → Bool
  | c :: b :: d :: _ => c == ' ' && b == 'b' && d == 'd'
  | _ => false

/-- Occurrence test for the sequence space, `b`, `d` anywhere in a list. -/
def hasSpaceBd : List Char → Bool
  | [] => false
  | c :: cs => spaceBdAtHead (c :: cs) || hasSpaceBd cs

/-! ### The string-similarity capability -/

/-- Modelled from the spec: the external string-similarity capability
(spec sections 4.4 and 6), which the repository consumes from the
`string-similarity` package.  `compareTwoStrings` is the character-bigram
Dice coefficient the spec names: both strings are stripped of all `\s`
whitespace; identical strings (including two empty ones) score 1; a string
shorter than two characters scores 0 against anything different; otherwise
the score is twice the bigram multiset intersection size divided by the
total bigram count. -/
def stripJsWs (s : String) : List Char :=
  s.data.filter (fun c => !(isJsWs c))

/-- The overlapping character bigrams of a character list. -/
def bigrams : List Char → List (Char × Char)
  | a :: b :: rest => (a, b) :: bigrams (b :: rest)
  | _ => []

/-- Insert-or-increment on the bigram count map (a JavaScript `Map`,
modelled as an insertion-ordered association list). -/
def bumpBg (m : List ((Char × Char) × Nat)) (k : Char × Char) :
    List ((Char × Char) × Nat) :=
  match m with
  | [] => [(k, 1)]
  | (k0, n) :: rest =>
    if k0 = k then (k0, n + 1) :: rest else (k0, n) :: bumpBg rest k

/-- Overwrite the count stored for an existing bigram. -/
def setBg (m : List ((Char × Char) × Nat)) (k : Char × Char) (v : Nat) :
    List ((Char × Char) × Nat) :=
  match m with
  | [] => [(k, v)]
  | (k0, n) :: rest =>
    if k0 = k then (k0, v) :: rest else (k0, n) :: setBg rest k v

/-- The sequential bigram-intersection loop of `compareTwoStrings`: for each
bigram of the second string, if a positive count remains in the map built from
the first string, decrement it and count one shared bigram. -/
def interGo : List (Char × Char) → List ((Char × Char) × Nat) → Nat → Nat
  | [], _, acc => acc
  | bg :: rest, m, acc =>
    match (m.find? (fun e => e.1 == bg)).map (·.2) with
    | some n =>
      if 0 < n then interGo rest (setBg m bg (n - 1)) (acc + 1)
      else interGo rest m acc
    | none => interGo rest m acc

/-- Dice-style bigram similarity of two strings, as an exact rational. -/
def compareTwoStrings (a b : String) : ℚ :=
  let f := stripJsWs a
  let s := stripJsWs b
  if f = s then 1
  else if f.length < 2 ∨ s.length < 2 then 0
  else
    mkRat (2 * (interGo (bigrams s) ((bigrams f).foldl bumpBg []) 0) : ℕ)
      (f.length + s.length - 2)

/-- The best-match record returned by the capability: the winning target
string and its rating. -/
structure FBMBest where
  target : String
  rating : ℚ
deriving DecidableEq, Repr

/-- The index-selection loop of `findBestMatch`: starting from index 0, a
later index replaces the current best only on a strictly greater rating. -/
def bestGo : List ℚ → Nat → Nat → ℚ → Nat × ℚ
  | [], _, bi, br => (bi, br)
  | r :: rs, i, bi, br =>
    if br < r then bestGo rs (i + 1) i r else bestGo rs (i + 1) bi br

/-- Sequence a list of optional strings; `none` anywhere gives `none`
(the JavaScript call throws on a non-string element). -/
def seqOpts : List (Option String) → Option (List String)
  | [] => some []
  | none :: _ => none
  | some s :: rest => (seqOpts rest).map (s :: ·)

/-- Modelled from the spec: `findBestMatch` of the external string-similarity
capability.  The result is `none` when the call would throw: an empty target
list, or a target that is not a string (an `undefined` produced upstream). -/
def findBestMatch (main : String) (targets : List (Option String)) :
    Option FBMBest :=
  match seqOpts targets with
  | none => none
  | some [] => none
  | some (t :: ts) =>
    let p := bestGo (ts.map (compareTwoStrings main)) 1 0 (compareTwoStrings main t)
    some ⟨(t :: ts).getD p.1 t, p.2⟩

/-! ### FindBestMatchByTitles -/

/-- The multi-representation title object of `similarity.ts` (`Title` when it
is not a plain string), with its three optional representations. -/
structure TitleObj where
  romaji : Option String := none
  english : Option String := none
  native : Option String := none
deriving DecidableEq, Repr

/-- The `Title` union type: a plain string or a representation object. -/
inductive Title where
  | str (s : String)
  | obj (t : TitleObj)
deriving DecidableEq, Repr

/-- A candidate entry: `title` is `none` for JavaScript `undefined`; `payload`
stands for the arbitrary extra fields of the generic record type. -/
structure Entry where
  title : Option String
  payload : Nat := 0
deriving DecidableEq, Repr

/-- The record returned by `FindBestMatchByTitles`. -/
structure FBTResult where
  mostCommonMatch : Option String
  mostCommonMatchIndex : Int
  similarityScore : ℚ
deriving DecidableEq, Repr

/-- One entry of the internal `matches` array: a best-match target string and
its score. -/
structure TMatch where
  target : String
  score : ℚ
deriving DecidableEq, Repr

/-- JavaScript falsiness of the optional `Title` argument: `undefined` and the
empty string are falsy; every object is truthy. -/
def titleFalsy : Option Title → Bool
  | none => true
  | some (Title.str s) => s = ""
  | some (Title.obj _) => false

/-- The sanitized candidate list: drop entries whose `title` is `undefined`,
then sanitize each remaining title (which yields `undefined` for titles that
sanitize to nothing, e.g. the empty string). -/
def resultTitlesOf (results : List Entry) : List (Option String) :=
  ((results.map Entry.title).filter Option.isSome).map sanitizeTitle

/-- Attempt one representation: a falsy representation (absent or empty) is
skipped; otherwise `findBestMatch` runs on its sanitized form and its thrown
error (`none`) aborts the whole computation. -/
def tryRep (r : Option String) (cands : List (Option String)) :
    Option (Option TMatch) :=
  match r with
  | none => some none
  | some s =>
    if s = "" then some none
    else
      match findBestMatch ((sanitizeTitle (some s)).getD "") cands with
      | none => none
      | some b => some (some ⟨b.target, b.rating⟩)

/-- Build the `matches` array: a single push for a string title, otherwise one
push per truthy representation in source order (english, romaji, native). -/
def buildMatches (t : Title) (cands : List (Option String)) :
    Option (List TMatch) :=
  match t with
  | Title.str s =>
    match findBestMatch ((sanitizeTitle (some s)).getD "") cands with
    | none => none
    | some b => some [⟨b.target, b.rating⟩]
  | Title.obj o => do
    let me ← tryRep o.english cands
    let mr ← tryRep o.romaji cands
    let mn ← tryRep o.native cands
    pure (me.toList ++ mr.toList ++ mn.toList)

/-- Optional lookup on a frequency map (first matching key). -/
def lookupN : List (String × Nat) → String → Option Nat
  | [], _ => none
  | (k0, v) :: rest, k => if k0 = k then some v else lookupN rest k

/-- Optional lookup on a score map (first matching key). -/
def lookupQopt : List (String × ℚ) → String → Option ℚ
  | [], _ => none
  | (k0, v) :: rest, k => if k0 = k then some v else lookupQopt rest k

/-- Optional lookup on an index map (first matching key). -/
def lookupIopt : List (String × Int) → String → Option Int
  | [], _ => none
  | (k0, v) :: rest, k => if k0 = k then some v else lookupIopt rest k

/-- `frequencyMap[t] = (frequencyMap[t] or 0) + 1`: increment in place, or
append a new property at the end (JavaScript insertion order). -/
def bumpFreq : List (String × Nat) → String → List (String × Nat)
  | [], t => [(t, 1)]
  | (k, v) :: rest, t =>
    if k = t then (k, v + 1) :: rest else (k, v) :: bumpFreq rest t

/-- `scoreMap[t] = score`: overwrite in place, or append. -/
def setScore : List (String × ℚ) → String → ℚ → List (String × ℚ)
  | [], t, v => [(t, v)]
  | (k, x) :: rest, t, v =>
    if k = t then (k, v) :: rest else (k, x) :: setScore rest t v

/-- JavaScript `Array.prototype.indexOf` on the sanitized candidate list,
searching for a defined string; −1 when absent. -/
def idxAux (p : Option String → Bool) : List (Option String) → Nat → Option Nat
  | [], _ => none
  | c :: cs, i => if p c then some i else idxAux p cs (i + 1)

/-- `resultTitles.indexOf target` as an integer (−1 when absent). -/
def idxOfOpt (cands : List (Option String)) (t : String) : Int :=
  match idxAux (fun c => c == some t) cands 0 with
  | some n => n
  | none => -1

/-- `indexMap[t]`: record the candidate index at the first occurrence of a
target only. -/
def addIdx (cands : List (Option String)) (m : List (String × Int))
    (t : String) : List (String × Int) :=
  if (lookupIopt m t).isSome then m
  else m ++ [(t, idxOfOpt cands t)]

/-- The frequency map accumulated over `matches` (insertion-ordered). -/
def freqMapOf (ms : List TMatch) : List (String × Nat) :=
  ms.foldl (fun a m => bumpFreq a m.target) []

/-- The score map accumulated over `matches`: each occurrence overwrites, so a
key holds the score of its last occurrence. -/
def scoreMapOf (ms : List TMatch) : List (String × ℚ) :=
  ms.foldl (fun a m => setScore a m.target m.score) []

/-- The index map accumulated over `matches`: first occurrence wins.  (The
source fills all three maps in one `forEach` pass; the three folds are
independent, so they are written separately here.) -/
def indexMapOf (ms : List TMatch) (cands : List (Option String)) :
    List (String × Int) :=
  ms.foldl (fun a m => addIdx cands a m.target) []

/-- ASCII decimal digit test. -/
def isDigitChar (c : Char) : Bool := 48 ≤ c.toNat && c.toNat ≤ 57

/-- Value of a list of decimal digits. -/
def digitsVal (l : List Char) : Nat :=
  l.foldl (fun a c => a * 10 + (c.toNat - 48)) 0

/-- A canonical array-index property key in JavaScript: the decimal numeral of
some `n < 2^32 − 1` without leading zeros. -/
def isArrayIndex (s : String) : Bool :=
  match s.data with
  | [] => false
  | c :: cs =>
    (c :: cs).all isDigitChar && (c != '0' || cs.isEmpty) &&
      digitsVal (c :: cs) < 4294967295

/-- Numeric value used to order array-index keys. -/
def keyNum (s : String) : Nat := digitsVal s.data

/-- Insert one pair into a list of array-index-keyed pairs, keeping ascending
numeric key order. -/
def insIdxKey (p : String × Nat) : List (String × Nat) → List (String × Nat)
  | [] => [p]
  | q :: rest =>
    if keyNum p.1 ≤ keyNum q.1 then p :: q :: rest else q :: insIdxKey p rest

/-- Sort array-index-keyed pairs by ascending numeric key. -/
def sortIdxKeys : List (String × Nat) → List (String × Nat)
  | [] => []
  | p :: rest => insIdxKey p (sortIdxKeys rest)

/-- `Object.entries` enumeration order on a frequency map: canonical
array-index keys first in ascending numeric order, then the remaining keys in
insertion order. -/
def entriesOf (m : List (String × Nat)) : List (String × Nat) :=
  sortIdxKeys (m.filter (fun p => isArrayIndex p.1)) ++
    m.filter (fun p => !(isArrayIndex p.1))

/-- `scoreMap[k]` lookup (0 when absent; every looked-up key is present). -/
def lookupQ (sm : List (String × ℚ)) (k : String) : ℚ :=
  match sm with
  | [] => 0
  | (k0, v) :: rest => if k0 = k then v else lookupQ rest k

/-- One step of the winner loop: strictly greater frequency replaces the
current winner and re-reads its score from the score map. -/
def winStep (sm : List (String × ℚ)) (acc : Option String × Nat × ℚ)
    (kf : String × Nat) : Option String × Nat × ℚ :=
  if acc.2.1 < kf.2 then (some kf.1, kf.2, lookupQ sm kf.1) else acc

/-- The winner loop over `Object.entries(frequencyMap)`. -/
def pickWinner (es : List (String × Nat)) (sm : List (String × ℚ)) :
    Option String × Nat × ℚ :=
  es.foldl (winStep sm) (none, 0, 0)

/-- `indexMap[k]` lookup (−1 when absent; every looked-up key is present). -/
def lookupI (im : List (String × Int)) (k : String) : Int :=
  match im with
  | [] => -1
  | (k0, v) :: rest => if k0 = k then v else lookupI rest k

/-- Assemble the returned record from the internal maps: the final index is
−1 when the winner is falsy (`null`, or the empty string). -/
def finishFBT (ms : List TMatch) (cands : List (Option String)) : FBTResult :=
  let w := pickWinner (entriesOf (freqMapOf ms)) (scoreMapOf ms)
  let idx : Int :=
    match w.1 with
    | some t => if t = "" then -1 else lookupI (indexMapOf ms cands) t
    | none => -1
  ⟨w.1, idx, w.2.2⟩

/-- `FindBestMatchByTitles` from `src/src/core/similarity.ts`.  The outer
`none` models a thrown exception from the string-similarity capability;
a falsy title short-circuits to `(null, −1, 0)`. -/
def FindBestMatchByTitles (t? : Option Title) (results : List Entry) :
    Option FBTResult :=
  if titleFalsy t? then some ⟨none, -1, 0⟩
  else
    match t? with
    | none => some ⟨none, -1, 0⟩
    | some t =>
      let cands := resultTitlesOf results
      match buildMatches t cands with
      | none => none
      | some ms => some (finishFBT ms cands)

/-! ### The Maplify class -/

/-- A website configuration (`Website<T>` of the mapper file).  Selector sets
only matter to the HTML branch, which delegates to the external document-query
capability and is outside the claims; they are kept as an opaque flag. -/
structure Website where
  url : String
  isRestAPI : Bool := false
  query : Option String := none
  «variables» : Option String := none
  hasSelectors : Bool := false
deriving DecidableEq, Repr

/-- JavaScript truthiness of `website.query` (the empty string is falsy). -/
def queryTruthy (w : Website) : Bool :=
  match w.query with
  | some q => q != ""
  | none => false

/-- The `Maplify` constructor: fewer than two websites throws synchronously,
otherwise the list is stored unchanged. -/
def maplifyConstructor (websites : List Website) :
    Except String (List Website) :=
  if websites.length < 2 then
    Except.error "At least two websites are required to map"
  else Except.ok websites

/-- A decoded JSON payload (what `axios` hands to `extractData`). -/
inductive Json where
  | null
  | bool (b : Bool)
  | num (q : ℚ)
  | str (s : String)
  | arr (elems : List Json)
  | obj (fields : List (String × Json))

/-- Outcome of the recursive `findArray` helper of `extractData`.  `overflow`
models the stack overflow of the source on any non-empty string value: the
`for...in` loop enumerates a primitive string's index properties, and
`"x"[0] === "x"`, so the recursion never terminates.  An empty string has no
index properties and behaves like the other primitives. -/
inductive FindRes where
  | found (elems : List Json)
  | notFound
  | overflow

mutual

/-- `findArray` from `extractData`: return the value itself if it is an array,
otherwise recurse into each field value in key-enumeration order, propagating
the first array found; primitives yield nothing. -/
def findArray : Json → FindRes
  | Json.arr l => FindRes.found l
  | Json.str s => if s = "" then FindRes.notFound else FindRes.overflow
  | Json.null => FindRes.notFound
  | Json.bool _ => FindRes.notFound
  | Json.num _ => FindRes.notFound
  | Json.obj fs => findArrayFields fs

/-- The `for...in` loop of `findArray` over an object's fields. -/
def findArrayFields : List (String × Json) → FindRes
  | [] => FindRes.notFound
  | (_, v) :: fs =>
    match findArray v with
    | FindRes.found l => FindRes.found l
    | FindRes.overflow => FindRes.overflow
    | FindRes.notFound => findArrayFields fs

end

/-- Property lookup on a decoded value: only objects have named properties
(decoded JSON objects have unique keys, so first match suffices). -/
def getField (j : Json) (k : String) : Option Json :=
  match j with
  | Json.obj fs => (fs.find? (fun p => p.1 == k)).map (·.2)
  | _ => none

/-- JavaScript falsiness of a decoded JSON value. -/
def jsonFalsy (j : Json) : Bool :=
  match j with
  | Json.null => true
  | Json.bool b => !b
  | Json.num q => q == 0
  | Json.str s => s == ""
  | Json.arr _ => false
  | Json.obj _ => false

/-- Truthiness of `item.title` for an array element. -/
def titleTruthy (item : Json) : Bool :=
  match getField item "title" with
  | some v => !(jsonFalsy v)
  | none => false

/-- Outcome of `extractData`.  `overflow` propagates the non-termination of
`findArray`; `htmlMode` marks the HTML branch, which is delegated to the
external document-query capability and not modelled. -/
inductive ExtractOutcome where
  | ok (items : List Json)
  | extractionError (msg : String)
  | overflow
  | htmlMode

/-- The `arrayData.map` pass: throw on the first element with a falsy `title`,
otherwise return the elements unchanged, in order. -/
def checkItems : List Json → ExtractOutcome
  | [] => ExtractOutcome.ok []
  | item :: rest =>
    if titleTruthy item then
      match checkItems rest with
      | ExtractOutcome.ok l => ExtractOutcome.ok (item :: l)
      | e => e
    else
      ExtractOutcome.extractionError
        "Each item in the array should contain a title property of type string"

/-- `extractData` from the mapper file.  The API branch is taken when the
website is REST-flagged or carries a truthy GraphQL query. -/
def extractData (data : Json) (w : Website) : ExtractOutcome :=
  if w.isRestAPI || queryTruthy w then
    match findArray data with
    | FindRes.found l => checkItems l
    | FindRes.notFound =>
      ExtractOutcome.extractionError
        "REST API or GraphQL response should contain an array property"
    | FindRes.overflow => ExtractOutcome.overflow
  else ExtractOutcome.htmlMode

mutual

/-- Modelled from the spec: the depth-first, pre-order, key-enumeration-order
search for the first array-valued field that section 4.2 (and claim C6)
describes.  Primitives have no children here, so this traversal always
terminates; it is compared against the source's `findArray`. -/
def dfsFirstArray : Json → Option (List Json)
  | Json.arr l => some l
  | Json.obj fs => dfsFirstArrayFields fs
  | _ => none

/-- Field traversal of the spec-side depth-first search. -/
def dfsFirstArrayFields : List (String × Json) → Option (List Json)
  | [] => none
  | (_, v) :: fs =>
    match dfsFirstArray v with
    | some l => some l
    | none => dfsFirstArrayFields fs

end

/-- `Math.min` against a possibly-infinite accumulator: `none` models the
`Infinity` the running minimum is initialized with. -/
def minInf (a : Option ℚ) (q : ℚ) : Option ℚ :=
  match a with
  | none => some q
  | some x => some (min x q)

/-- A `MatchGroup` as pushed by `mapTitles`: the insertion-ordered `data`
record (key `base` first, then one `website(i+1)` key per matching source) and
the running-minimum score (`none` would be the untouched `Infinity`).  Values
are optional because the source indexes the unfiltered entry list with an
index computed on the filtered one, which can in principle miss. -/
structure MatchGroup where
  data : List (String × Option Entry)
  score : Option ℚ
deriving DecidableEq, Repr

/-- Array indexing `otherData[idx]` with a JavaScript-style out-of-range
result. -/
def listGetOpt (l : List Entry) (i : Int) : Option Entry :=
  if i < 0 then none else l.get? i.toNat

/-- The inner source loop of `mapTitles` for one base item with title `t`:
source `j` (0-based over the non-base sources) contributes under key
`website(j+2)` when its best match has index ≠ −1, updating the running
minimum score.  `none` propagates a thrown exception from
`FindBestMatchByTitles`. -/
def goSources (t : String) : List (List Entry) → Nat →
    List (String × Option Entry) → Option ℚ →
    Option (List (String × Option Entry) × Option ℚ)
  | [], _, acc, low => some (acc, low)
  | other :: os, j, acc, low =>
    match FindBestMatchByTitles (some (Title.str t)) other with
    | none => none
    | some r =>
      if r.mostCommonMatchIndex ≠ -1 then
        goSources t os (j + 1)
          (acc ++ [("website" ++ Nat.repr (j + 2),
                    listGetOpt other r.mostCommonMatchIndex)])
          (minInf low r.similarityScore)
      else goSources t os (j + 1) acc low

/-- The base-entry loop of `mapTitles`: skip base items with a falsy title,
otherwise run the source loop and push a group only when at least one other
source matched (more than the `base` key alone). -/
def goBase (rest : List (List Entry)) : List Entry → Option (List MatchGroup)
  | [] => some []
  | b :: bs =>
    match b.title with
    | some t =>
      if t = "" then goBase rest bs
      else
        match goSources t rest 0 [("base", some b)] none with
        | none => none
        | some (d, low) =>
          match goBase rest bs with
          | none => none
          | some gs =>
            some (if 1 < d.length then MatchGroup.mk d low :: gs else gs)
    | none => goBase rest bs

/-- `mapTitles` from the mapper file: the first extracted list anchors the
groups.  An empty outer list makes the source dereference `undefined`
(`none` here). -/
def mapTitles (extracted : List (List Entry)) : Option (List MatchGroup) :=
  match extracted with
  | [] => none
  | base :: rest => goBase rest base

/-- The per-source similarity scores recorded for one base title, in source
order: exactly the scores `mapTitles` feeds into its running minimum. -/
def contribScores (t : String) : List (List Entry) → Option (List ℚ)
  | [] => some []
  | other :: os =>
    match FindBestMatchByTitles (some (Title.str t)) other with
    | none => none
    | some r =>
      (contribScores t os).map
        (fun cs => if r.mostCommonMatchIndex ≠ -1 then r.similarityScore :: cs
                   else cs)

/-- Number of occurrences of a target string in the `matches` array. -/
def countMatches (w : String) (ms : List TMatch) : Nat :=
  ms.countP (fun m => m.target == w)

/-- Score of the last occurrence of a target in the `matches` array (what the
overwriting `scoreMap` ends up recording). -/
def lastScoreOf (w : String) : List TMatch → Option ℚ
  | [] => none
  | m :: rest =>
    match lastScoreOf w rest with
    | some q => some q
    | none => if m.target == w then some m.score else none

/-! ## Theorems -/

/-! ### Character-level facts -/

theorem jsToLower_toNat_of_upper (c : Char) (h : 65 ≤ c.toNat ∧ c.toNat ≤ 90) :
    (jsToLower c).toNat = c.toNat + 32 := by
  unfold jsToLower
  rw [if_pos h]
  obtain ⟨h1, h2⟩ := h
  generalize hn : c.toNat = n at h1 h2
  interval_cases n <;> decide

theorem jsToLower_of_not_upper (c : Char) (h : ¬(65 ≤ c.toNat ∧ c.toNat ≤ 90)) :
    jsToLower c = c := by
  unfold jsToLower
  rw [if_neg h]

theorem jsToLower_idem (c : Char) : jsToLower (jsToLower c) = jsToLower c := by
  by_cases h : 65 ≤ c.toNat ∧ c.toNat ≤ 90
  · have ht := jsToLower_toNat_of_upper c h
    have : ¬(65 ≤ (jsToLower c).toNat ∧ (jsToLower c).toNat ≤ 90) := by omega
    exact jsToLower_of_not_upper _ this
  · rw [jsToLower_of_not_upper c h, jsToLower_of_not_upper c h]

theorem jsToLower_fix_of_mem_map {l : List Char} {c : Char}
    (h : c ∈ l.map jsToLower) : jsToLower c = c := by
  obtain ⟨a, _, rfl⟩ := List.mem_map.mp h
  exact jsToLower_idem a

theorem map_id_of_mem {α : Type} {f : α → α} :
    ∀ {l : List α}, (∀ c ∈ l, f c = c) → l.map f = l
  | [], _ => rfl
  | c :: cs, h => by
    rw [List.map_cons, h c (List.mem_cons_self c cs),
      map_id_of_mem (fun x hx => h x (List.mem_cons_of_mem c hx))]

/-! ### The regex replacements fix marker-free strings -/

theorem isPrefixCI_paren_false {ps rest : List Char}
    (h : ∀ c ∈ rest, jsToLower c ≠ '(') :
    isPrefixCI ('(' :: ps) rest = false := by
  cases rest with
  | nil => rfl
  | cons c cs =>
    have := h c (List.mem_cons_self c cs)
    simp [isPrefixCI, this]

theorem matchQualAt_eq_none {l : List Char}
    (h : ∀ c ∈ l, jsToLower c ≠ '(') : matchQualAt l = none := by
  have hdrop : ∀ c ∈ l.drop (l.takeWhile (· == ' ')).length, jsToLower c ≠ '(' :=
    fun c hc => h c (List.drop_subset _ l hc)
  have hfind :
      qualPats.find?
        (fun p => isPrefixCI p (l.drop (l.takeWhile (· == ' ')).length)) = none := by
    rw [List.find?_eq_none]
    intro p hp
    have hps : ∃ ps, p = '(' :: ps := by
      simp only [qualPats, List.mem_cons, List.not_mem_nil, or_false] at hp
      rcases hp with rfl | rfl | rfl | rfl | rfl | rfl <;> exact ⟨_, rfl⟩
    obtain ⟨ps, rfl⟩ := hps
    simp [isPrefixCI_paren_false hdrop]
  unfold matchQualAt
  split
  next p heq => rw [hfind] at heq; cases heq
  next => rfl

theorem goQual_eq_self : ∀ {l : List Char},
    (∀ c ∈ l, jsToLower c ≠ '(') → goQual l = l
  | [], _ => rfl
  | c :: cs, h => by
    rw [goQual, matchQualAt_eq_none h,
      goQual_eq_self (fun x hx => h x (List.mem_cons_of_mem c hx))]

theorem matchAudioAt_eq_none {l : List Char}
    (h : ∀ c ∈ l, c ≠ '(') : matchAudioAt l = none := by
  unfold matchAudioAt
  split
  next rest2 heq =>
    have hmem : '(' ∈ l := by
      refine List.drop_subset (l.takeWhile (· == ' ')).length l ?_
      rw [heq]
      exact List.mem_cons_self _ _
    exact absurd rfl (h _ hmem)
  next => rfl

theorem goAudio_eq_self : ∀ {l : List Char},
    (∀ c ∈ l, c ≠ '(') → goAudio l = l
  | [], _ => rfl
  | c :: cs, h => by
    rw [goAudio, matchAudioAt_eq_none h,
      goAudio_eq_self (fun x hx => h x (List.mem_cons_of_mem c hx))]

theorem matchBdAt_eq_none {l : List Char}
    (hfix : ∀ c ∈ l, jsToLower c = c) (h : spaceBdAtHead l = false) :
    matchBdAt l = none := by
  match l with
  | [] => rfl
  | [c] => rfl
  | [c, c2] => rfl
  | c :: b :: d :: rest =>
    show matchBdAt (c :: b :: d :: rest) = none
    have hcond : ¬(c = ' ' ∧ jsToLower b = 'b' ∧ jsToLower d = 'd') := by
      rintro ⟨rfl, h1, h2⟩
      rw [hfix b (by simp)] at h1
      rw [hfix d (by simp)] at h2
      subst h1; subst h2
      simp [spaceBdAtHead] at h
    show (if c = ' ' ∧ jsToLower b = 'b' ∧ jsToLower d = 'd' then
        match rest with
        | ' ' :: _ => some 4
        | [] => some 3
        | _ => none
      else none) = none
    exact if_neg hcond

theorem hasSpaceBd_cons (c : Char) (cs : List Char) :
    hasSpaceBd (c :: cs) = (spaceBdAtHead (c :: cs) || hasSpaceBd cs) := rfl

theorem goBd_eq_self : ∀ {l : List Char},
    (∀ c ∈ l, jsToLower c = c) → hasSpaceBd l = false → goBd l = l
  | [], _, _ => rfl
  | c :: cs, hfix, h => by
    rw [hasSpaceBd_cons, Bool.or_eq_false_iff] at h
    rw [goBd, matchBdAt_eq_none hfix h.1,
      goBd_eq_self (fun x hx => hfix x (List.mem_cons_of_mem c hx)) h.2]

/-! ### Trim facts -/

theorem jsTrim_eq (l : List Char) :
    jsTrim l = List.rdropWhile isJsWs (List.dropWhile isJsWs l) := rfl

theorem jsTrim_sublist (l : List Char) : (jsTrim l).Sublist l := by
  rw [jsTrim_eq]
  exact (( List.rdropWhile_prefix _ _).sublist).trans
    ((List.dropWhile_suffix _).sublist)

theorem mem_of_mem_jsTrim {l : List Char} {c : Char} (h : c ∈ jsTrim l) :
    c ∈ l := (jsTrim_sublist l).subset h

theorem jsTrim_length_le (l : List Char) : (jsTrim l).length ≤ l.length :=
  (jsTrim_sublist l).length_le

theorem jsTrim_isInfix (l : List Char) : (jsTrim l).IsInfix l := by
  rw [jsTrim_eq]
  exact (( List.rdropWhile_prefix _ _).isInfix).trans
    ((List.dropWhile_suffix _).isInfix)

theorem jsTrim_ne_nil {l : List Char} (h : ∃ c ∈ l, isJsWs c = false) :
    jsTrim l ≠ [] := by
  intro hnil
  rw [jsTrim_eq, List.rdropWhile_eq_nil_iff] at hnil
  obtain ⟨c, hc, hws⟩ := h
  rw [← List.takeWhile_append_dropWhile (p := isJsWs) (l := l),
    List.mem_append] at hc
  rcases hc with hc | hc
  · rw [List.mem_takeWhile_imp hc] at hws
    cases hws
  · rw [hnil c hc] at hws
    cases hws

theorem head_of_dropWhile_false {α : Type} {p : α → Bool} :
    ∀ {l : List α} {c : α} {t : List α},
      List.dropWhile p l = c :: t → p c = false := by
  intro l
  induction l with
  | nil => intro c t h; cases h
  | cons a as ih =>
    intro c t h
    by_cases hp : p a = true
    · rw [List.dropWhile_cons_of_pos hp] at h
      exact ih h
    · rw [List.dropWhile_cons_of_neg hp] at h
      injection h with h1 _
      subst h1
      exact Bool.eq_false_iff.mpr hp

theorem dropWhile_jsTrim (l : List Char) :
    List.dropWhile isJsWs (jsTrim l) = jsTrim l := by
  rcases hy : jsTrim l with _ | ⟨c, t⟩
  · rfl
  · have hpre : (jsTrim l).IsPrefix (List.dropWhile isJsWs l) := by
      rw [jsTrim_eq]
      exact List.rdropWhile_prefix _ _
    obtain ⟨r, hr⟩ := hpre
    rw [hy] at hr
    have hc : isJsWs c = false := head_of_dropWhile_false hr.symm
    rw [List.dropWhile_cons_of_neg (Bool.eq_false_iff.mp hc)]

theorem jsTrim_jsTrim (l : List Char) : jsTrim (jsTrim l) = jsTrim l := by
  rw [jsTrim_eq (jsTrim l), dropWhile_jsTrim, jsTrim_eq,
    List.rdropWhile_idempotent]

/-! ### hasSpaceBd transfer along infixes -/

theorem spaceBdAtHead_eq_true_iff (l : List Char) :
    spaceBdAtHead l = true ↔ ∃ t, l = ' ' :: 'b' :: 'd' :: t := by
  match l with
  | [] => simp [spaceBdAtHead]
  | [c] => simp [spaceBdAtHead]
  | [c, b] => simp [spaceBdAtHead]
  | c :: b :: d :: t =>
    show (c == ' ' && b == 'b' && d == 'd') = true ↔ _
    constructor
    · intro h
      simp only [Bool.and_eq_true, beq_iff_eq] at h
      obtain ⟨⟨rfl, rfl⟩, rfl⟩ := h
      exact ⟨t, rfl⟩
    · rintro ⟨t2, ht⟩
      injection ht with h1 ht
      injection ht with h2 ht
      injection ht with h3 _
      subst h1; subst h2; subst h3
      rfl

theorem hasSpaceBd_eq_true_iff (l : List Char) :
    hasSpaceBd l = true ↔ ∃ u t, l = u ++ ' ' :: 'b' :: 'd' :: t := by
  induction l with
  | nil =>
    simp only [hasSpaceBd]
    constructor
    · intro h; cases h
    · rintro ⟨u, t, hu⟩
      have hlen := congrArg List.length hu
      simp only [List.length_nil, List.length_append, List.length_cons] at hlen
      omega
  | cons c cs ih =>
    rw [hasSpaceBd_cons, Bool.or_eq_true]
    constructor
    · rintro (h | h)
      · obtain ⟨t, ht⟩ := (spaceBdAtHead_eq_true_iff _).mp h
        exact ⟨[], t, ht⟩
      · obtain ⟨u, t, ht⟩ := ih.mp h
        exact ⟨c :: u, t, by rw [ht]; rfl⟩
    · rintro ⟨u, t, hu⟩
      cases u with
      | nil =>
        left
        rw [(by exact hu : c :: cs = ' ' :: 'b' :: 'd' :: t)]
        rfl
      | cons c0 u0 =>
        right
        refine ih.mpr ⟨u0, t, ?_⟩
        injection hu with _ h2

theorem hasSpaceBd_of_isInfix {l m : List Char} (h : m.IsInfix l)
    (hla : hasSpaceBd m = true) : hasSpaceBd l = true := by
  obtain ⟨u, t, hm⟩ := (hasSpaceBd_eq_true_iff m).mp hla
  obtain ⟨a, b, hab⟩ := h
  refine (hasSpaceBd_eq_true_iff l).mpr ⟨a ++ u, t ++ b, ?_⟩
  rw [← hab, hm]
  simp

theorem hasSpaceBd_false_of_isInfix {l m : List Char} (h : m.IsInfix l)
    (hl : hasSpaceBd l = false) : hasSpaceBd m = false := by
  rcases hm : hasSpaceBd m with _ | _
  · rfl
  · rw [hasSpaceBd_of_isInfix h hm] at hl
    cases hl

/-! ### Claim C3 -/

/-- C3 counterexample: `sanitizeTitle` is not idempotent.  On
`"a (dub) (dub)"` one application removes only the first qualifier marker,
leaving `"a (dub)"`, and a second application removes the second marker. -/
theorem c3_counterexample :
    sanitizeTitle (sanitizeTitle (some "a (dub) (dub)")) ≠
      sanitizeTitle (some "a (dub) (dub)") := by decide

/-- C3 (amended): `sanitizeTitle` is idempotent on every string of length at
most 99 that contains no parenthesis (after lowercasing), no space-`bd`
sequence (case-insensitively), and at least one non-whitespace character.  In
general idempotence fails because each application removes only the first
occurrence of each marker pattern. -/
theorem c3_sanitizeTitle_idempotent_amended (s : String)
    (hlen : s.data.length ≤ 99)
    (hparen : ∀ c ∈ s.data.map jsToLower, c ≠ '(')
    (hbd : hasSpaceBd (s.data.map jsToLower) = false)
    (hws : ∃ c ∈ s.data.map jsToLower, isJsWs c = false) :
    sanitizeTitle (sanitizeTitle (some s)) = sanitizeTitle (some s) := by
  have hfix : ∀ c ∈ s.data.map jsToLower, jsToLower c = c :=
    fun c hc => jsToLower_fix_of_mem_map hc
  have hparen2 : ∀ c ∈ s.data.map jsToLower, jsToLower c ≠ '(' := by
    intro c hc
    rw [hfix c hc]
    exact hparen c hc
  have hsne : s ≠ "" := by
    intro hs
    subst hs
    obtain ⟨c, hc, _⟩ := hws
    simp at hc
  have hLlen : (s.data.map jsToLower).length ≤ 99 := by simpa using hlen
  have h1 : goQual (s.data.map jsToLower) = s.data.map jsToLower :=
    goQual_eq_self hparen2
  have h2 : goAudio (s.data.map jsToLower) = s.data.map jsToLower :=
    goAudio_eq_self hparen
  have h3 : goBd (s.data.map jsToLower) = s.data.map jsToLower :=
    goBd_eq_self hfix hbd
  have htake : (jsTrim (s.data.map jsToLower)).take 99 =
      jsTrim (s.data.map jsToLower) :=
    List.take_of_length_le ((jsTrim_length_le _).trans hLlen)
  have hfst : sanitizeTitle (some s) =
      some (String.mk (jsTrim (s.data.map jsToLower))) := by
    simp only [sanitizeTitle]
    rw [if_neg hsne, h1, h2, h3, htake]
  have hyne : jsTrim (s.data.map jsToLower) ≠ [] := jsTrim_ne_nil hws
  have hymem : ∀ c ∈ jsTrim (s.data.map jsToLower), c ∈ s.data.map jsToLower :=
    fun _ hc => mem_of_mem_jsTrim hc
  have hymk_ne : String.mk (jsTrim (s.data.map jsToLower)) ≠ "" := by
    intro h
    exact hyne (congrArg String.data h)
  have hymap : (jsTrim (s.data.map jsToLower)).map jsToLower =
      jsTrim (s.data.map jsToLower) :=
    map_id_of_mem (fun c hc => hfix c (hymem c hc))
  have hg1 : goQual (jsTrim (s.data.map jsToLower)) =
      jsTrim (s.data.map jsToLower) :=
    goQual_eq_self (fun c hc => hparen2 c (hymem c hc))
  have hg2 : goAudio (jsTrim (s.data.map jsToLower)) =
      jsTrim (s.data.map jsToLower) :=
    goAudio_eq_self (fun c hc => hparen c (hymem c hc))
  have hg3 : goBd (jsTrim (s.data.map jsToLower)) =
      jsTrim (s.data.map jsToLower) :=
    goBd_eq_self (fun c hc => hfix c (hymem c hc))
      (hasSpaceBd_false_of_isInfix (jsTrim_isInfix _) hbd)
  have hytrim : jsTrim (jsTrim (s.data.map jsToLower)) =
      jsTrim (s.data.map jsToLower) := jsTrim_jsTrim _
  have hytake : (jsTrim (s.data.map jsToLower)).take 99 =
      jsTrim (s.data.map jsToLower) := htake
  rw [hfst]
  simp only [sanitizeTitle]
  rw [if_neg hymk_ne]
  show some (String.mk ((jsTrim (goBd (goAudio (goQual
      ((jsTrim (s.data.map jsToLower)).map jsToLower))))).take 99)) =
    some (String.mk (jsTrim (s.data.map jsToLower)))
  rw [hymap, hg1, hg2, hg3, hytrim, hytake]

/-- C3 witness: the amended idempotence applies to `"Hello World"`. -/
theorem c3_witness :
    sanitizeTitle (sanitizeTitle (some "Hello World")) =
      sanitizeTitle (some "Hello World") :=
  c3_sanitizeTitle_idempotent_amended "Hello World" (by decide) (by decide)
    (by decide) (by decide)

/-! ### Claim C7 -/

/-- C7: constructing a `Maplify` with fewer than two website configurations
always fails with the configuration error, and constructing with two or more
always succeeds, storing the list unchanged.  The guard is the only statement
of the constructor, so the error is raised synchronously before any network
activity. -/
theorem c7_constructor_requires_two_websites (websites : List Website) :
    (websites.length < 2 →
      maplifyConstructor websites =
        Except.error "At least two websites are required to map") ∧
    (2 ≤ websites.length →
      maplifyConstructor websites = Except.ok websites) := by
  constructor
  · intro h
    unfold maplifyConstructor
    rw [if_pos h]
  · intro h
    unfold maplifyConstructor
    rw [if_neg (by omega)]

/-- C7 witness: a one-element list fails, a two-element list succeeds. -/
theorem c7_witness :
    maplifyConstructor [⟨"a", true, none, none, false⟩] =
      Except.error "At least two websites are required to map" ∧
    maplifyConstructor [⟨"a", true, none, none, false⟩,
        ⟨"b", true, none, none, false⟩] =
      Except.ok [⟨"a", true, none, none, false⟩,
        ⟨"b", true, none, none, false⟩] :=
  ⟨(c7_constructor_requires_two_websites
      [⟨"a", true, none, none, false⟩]).1 (by decide),
   (c7_constructor_requires_two_websites
      [⟨"a", true, none, none, false⟩,
       ⟨"b", true, none, none, false⟩]).2 (by decide)⟩

/-! ### Claim C2 -/

/-- C2 counterexample: on the Spy x Family input the code does return the
single candidate as winner (index 0), but the reported similarity score is 0,
not 1.0, and the winner's vote count is 3, not 1: all three representations
vote for the only candidate, and the score map keeps the score of the last
representation (the native title, which scores 0). -/
theorem c2_counterexample :
    FindBestMatchByTitles
        (some (Title.obj
          ⟨some "Spy Family", some "Spy x Family", some "スパイファミリー"⟩))
        [⟨some "Spy x Family", 0⟩] =
      some ⟨some "spy x family", 0, 0⟩ ∧
    (buildMatches
        (Title.obj
          ⟨some "Spy Family", some "Spy x Family", some "スパイファミリー"⟩)
        (resultTitlesOf [⟨some "Spy x Family", 0⟩])).map freqMapOf =
      some [("spy x family", 3)] ∧
    (0 : ℚ) ≠ 1 ∧ (3 : ℕ) ≠ 1 :=
  ⟨by decide, by decide, by decide, by decide⟩

/-- C2 (amended): the Spy x Family multi-representation title matched against
the single candidate `"Spy x Family"` yields that candidate as winner at
index 0, but with vote count 3 (every representation votes for the only
candidate) and reported similarity score 0 (the score recorded at the
winner's last occurrence, produced by the native representation). -/
theorem c2_spy_family_winner_votes_and_score :
    FindBestMatchByTitles
        (some (Title.obj
          ⟨some "Spy Family", some "Spy x Family", some "スパイファミリー"⟩))
        [⟨some "Spy x Family", 0⟩] =
      some ⟨some "spy x family", 0, 0⟩ ∧
    (buildMatches
        (Title.obj
          ⟨some "Spy Family", some "Spy x Family", some "スパイファミリー"⟩)
        (resultTitlesOf [⟨some "Spy x Family", 0⟩])).map freqMapOf =
      some [("spy x family", 3)] :=
  ⟨by decide, by decide⟩

/-! ### Claim C6 -/

/-- C6: on a payload whose first field is a non-empty string and whose second
field holds the array, the spec-side depth-first search finds the array, but
`extractData` never reaches it: `findArray` recurses into the string's index
properties (`"x"[0] === "x"`) and overflows the stack instead of returning
the array or raising the extraction error. -/
theorem c6_extractData_overflows_on_string_field :
    extractData
        (Json.obj [("a", Json.str "x"),
          ("b", Json.arr [Json.obj [("title", Json.str "t")]])])
        ⟨"u", true, none, none, false⟩ = ExtractOutcome.overflow ∧
    dfsFirstArray
        (Json.obj [("a", Json.str "x"),
          ("b", Json.arr [Json.obj [("title", Json.str "t")]])]) =
      some [Json.obj [("title", Json.str "t")]] :=
  ⟨rfl, rfl⟩

/-! ### Claim C9 -/

theorem checkItems_ok_or_error (l : List Json) :
    (∃ m, checkItems l = ExtractOutcome.ok m) ∨
      checkItems l = ExtractOutcome.extractionError
        "Each item in the array should contain a title property of type string" := by
  induction l with
  | nil => exact Or.inl ⟨[], rfl⟩
  | cons item rest ih =>
    by_cases h : titleTruthy item = true
    · rcases ih with ⟨m, hm⟩ | hm
      · refine Or.inl ⟨item :: m, ?_⟩
        rw [checkItems, if_pos h, hm]
      · refine Or.inr ?_
        rw [checkItems, if_pos h, hm]
    · refine Or.inr ?_
      rw [checkItems, if_neg h]

theorem checkItems_error_iff (l : List Json) :
    checkItems l = ExtractOutcome.extractionError
        "Each item in the array should contain a title property of type string" ↔
      ∃ item ∈ l, titleTruthy item = false := by
  induction l with
  | nil =>
    constructor
    · intro h; cases h
    · rintro ⟨item, hmem, _⟩; cases hmem
  | cons item rest ih =>
    by_cases h : titleTruthy item = true
    · rw [checkItems, if_pos h]
      rcases checkItems_ok_or_error rest with ⟨m, hm⟩ | hm
      · rw [hm]
        constructor
        · intro hcontra; cases hcontra
        · rintro ⟨it, hmem, hfalse⟩
          rcases List.mem_cons.mp hmem with rfl | hmem2
          · rw [h] at hfalse; cases hfalse
          · exact absurd (ih.mpr ⟨it, hmem2, hfalse⟩) (by rw [hm]; intro hx; cases hx)
      · rw [hm]
        constructor
        · intro _
          obtain ⟨it, hmem, hfalse⟩ := ih.mp hm
          exact ⟨it, List.mem_cons_of_mem item hmem, hfalse⟩
        · intro _; rfl
    · rw [checkItems, if_neg h]
      constructor
      · intro _
        exact ⟨item, List.mem_cons_self item rest,
          Bool.eq_false_iff.mpr h⟩
      · intro _; rfl

/-- C9: in API mode, once `findArray` has located an array, the extraction
error about titles is raised exactly when some element's `title` property is
falsy: absent, `null`, the empty string, `0`, or `false`. -/
theorem c9_title_error_iff_falsy (data : Json) (w : Website) (l : List Json)
    (hmode : (w.isRestAPI || queryTruthy w) = true)
    (hfound : findArray data = FindRes.found l) :
    extractData data w = ExtractOutcome.extractionError
        "Each item in the array should contain a title property of type string" ↔
      ∃ item ∈ l, titleTruthy item = false := by
  unfold extractData
  rw [if_pos hmode, hfound]
  exact checkItems_error_iff l

/-- C9 witness: an element whose `title` is the empty string triggers the
extraction error. -/
theorem c9_witness :
    extractData (Json.obj [("items", Json.arr [Json.obj [("title", Json.str "")]])])
        ⟨"u", true, none, none, false⟩ =
      ExtractOutcome.extractionError
        "Each item in the array should contain a title property of type string" ↔
      ∃ item ∈ [Json.obj [("title", Json.str "")]], titleTruthy item = false :=
  c9_title_error_iff_falsy
    (Json.obj [("items", Json.arr [Json.obj [("title", Json.str "")]])])
    ⟨"u", true, none, none, false⟩
    [Json.obj [("title", Json.str "")]] (by decide) rfl

/-! ### The winner loop selects the first maximal entry -/

theorem winFold_spec (sm : List (String × ℚ)) :
    ∀ (es : List (String × Nat)) (mc0 : Option String) (mf0 : Nat) (sc0 : ℚ),
      (es.foldl (winStep sm) (mc0, mf0, sc0) = (mc0, mf0, sc0) ∧
        ∀ p ∈ es, p.2 ≤ mf0) ∨
      (∃ w f pre post,
        es.foldl (winStep sm) (mc0, mf0, sc0) = (some w, f, lookupQ sm w) ∧
        es = pre ++ (w, f) :: post ∧ mf0 < f ∧
        (∀ p ∈ pre, p.2 < f) ∧ (∀ p ∈ es, p.2 ≤ f)) := by
  intro es
  induction es with
  | nil =>
    intro mc0 mf0 sc0
    exact Or.inl ⟨rfl, by simp⟩
  | cons kf rest ih =>
    intro mc0 mf0 sc0
    obtain ⟨k, c⟩ := kf
    by_cases hc : mf0 < c
    · have hstep : winStep sm (mc0, mf0, sc0) (k, c) = (some k, c, lookupQ sm k) := by
        unfold winStep
        rw [if_pos hc]
      rcases ih (some k) c (lookupQ sm k) with ⟨heq, hall⟩ |
        ⟨w, f, pre, post, heq, hsplit, hlt, hpre, hall⟩
      · refine Or.inr ⟨k, c, [], rest, ?_, by simp, hc, by simp, ?_⟩
        · rw [List.foldl_cons, hstep, heq]
        · intro p hp
          rcases List.mem_cons.mp hp with rfl | hp2
          · exact le_refl _
          · exact hall p hp2
      · refine Or.inr ⟨w, f, (k, c) :: pre, post, ?_, ?_, hc.trans hlt, ?_, ?_⟩
        · rw [List.foldl_cons, hstep, heq]
        · rw [hsplit]
          rfl
        · intro p hp
          rcases List.mem_cons.mp hp with rfl | hp2
          · exact hlt
          · exact hpre p hp2
        · intro p hp
          rcases List.mem_cons.mp hp with rfl | hp2
          · exact le_of_lt hlt
          · exact hall p hp2
    · have hstep : winStep sm (mc0, mf0, sc0) (k, c) = (mc0, mf0, sc0) := by
        unfold winStep
        rw [if_neg hc]
      have hcle : c ≤ mf0 := not_lt.mp hc
      rcases ih mc0 mf0 sc0 with ⟨heq, hall⟩ |
        ⟨w, f, pre, post, heq, hsplit, hlt, hpre, hall⟩
      · refine Or.inl ⟨?_, ?_⟩
        · rw [List.foldl_cons, hstep, heq]
        · intro p hp
          rcases List.mem_cons.mp hp with rfl | hp2
          · exact hcle
          · exact hall p hp2
      · refine Or.inr ⟨w, f, (k, c) :: pre, post, ?_, ?_, hlt, ?_, ?_⟩
        · rw [List.foldl_cons, hstep, heq]
        · rw [hsplit]
          rfl
        · intro p hp
          rcases List.mem_cons.mp hp with rfl | hp2
          · exact lt_of_le_of_lt hcle hlt
          · exact hpre p hp2
        · intro p hp
          rcases List.mem_cons.mp hp with rfl | hp2
          · exact le_of_lt (lt_of_le_of_lt hcle hlt)
          · exact hall p hp2

/-! ### Frequency map semantics -/

theorem lookupN_bumpFreq (m : List (String × Nat)) (t k : String) :
    lookupN (bumpFreq m t) k =
      if k = t then some ((lookupN m t).getD 0 + 1) else lookupN m k := by
  induction m with
  | nil =>
    by_cases hk : k = t
    · subst hk
      simp [bumpFreq, lookupN]
    · simp [bumpFreq, lookupN, Ne.symm hk, hk]
  | cons p rest ih =>
    obtain ⟨k0, v⟩ := p
    by_cases h0 : k0 = t
    · subst h0
      by_cases hk : k0 = k
      · subst hk
        simp [bumpFreq, lookupN]
      · have hk2 : k ≠ k0 := Ne.symm hk
        simp [bumpFreq, lookupN, hk, hk2]
    · by_cases hk : k0 = k
      · subst hk
        have hkt : k0 ≠ t := h0
        simp [bumpFreq, lookupN, h0, hkt, Ne.symm hkt]
      · simp only [bumpFreq, if_neg h0, lookupN, if_neg hk, ih]

theorem countMatches_cons (w : String) (m : TMatch) (rest : List TMatch) :
    countMatches w (m :: rest) =
      countMatches w rest + if m.target = w then 1 else 0 := by
  simp [countMatches, List.countP_cons]

theorem freq_fold_getD : ∀ (ms : List TMatch) (m0 : List (String × Nat))
    (k : String),
    (lookupN (ms.foldl (fun a m => bumpFreq a m.target) m0) k).getD 0 =
      (lookupN m0 k).getD 0 + countMatches k ms
  | [], m0, k => by simp [countMatches]
  | m :: rest, m0, k => by
    rw [List.foldl_cons, freq_fold_getD rest (bumpFreq m0 m.target) k,
      lookupN_bumpFreq, countMatches_cons]
    by_cases hk : k = m.target
    · rw [if_pos hk, if_pos (hk.symm)]
      subst hk
      simp only [Option.getD_some]
      omega
    · rw [if_neg hk, if_neg (fun h => hk h.symm)]
      omega

theorem freq_fold_isSome : ∀ (ms : List TMatch) (m0 : List (String × Nat))
    (k : String),
    ((lookupN (ms.foldl (fun a m => bumpFreq a m.target) m0) k).isSome = true ↔
      (lookupN m0 k).isSome = true ∨ 0 < countMatches k ms)
  | [], m0, k => by simp [countMatches]
  | m :: rest, m0, k => by
    rw [List.foldl_cons, freq_fold_isSome rest (bumpFreq m0 m.target) k,
      lookupN_bumpFreq, countMatches_cons]
    by_cases hk : k = m.target
    · rw [if_pos hk, if_pos hk.symm]
      exact ⟨fun _ => Or.inr (by omega), fun _ => Or.inl rfl⟩
    · rw [if_neg hk, if_neg (fun h => hk h.symm), Nat.add_zero]

theorem freqMapOf_lookup (ms : List TMatch) (k : String) :
    lookupN (freqMapOf ms) k =
      if 0 < countMatches k ms then some (countMatches k ms) else none := by
  have h1 := freq_fold_getD ms [] k
  have h2 := freq_fold_isSome ms [] k
  simp only [lookupN, Option.getD_none, Option.isSome_none,
    Bool.false_eq_true, false_or, Nat.zero_add] at h1 h2
  unfold freqMapOf
  rcases ho : lookupN (ms.foldl (fun a m => bumpFreq a m.target) []) k with
    _ | v
  · rw [ho] at h2
    rw [ho]
    simp only [Option.isSome_none, Bool.false_eq_true, false_iff] at h2
    rw [if_neg h2]
  · rw [ho] at h1 h2
    rw [ho]
    simp only [Option.getD_some, Option.isSome_some, true_iff] at h1 h2
    rw [if_pos h2, h1]

theorem mem_insIdxKey {p q : String × Nat} :
    ∀ {l : List (String × Nat)}, (q ∈ insIdxKey p l ↔ q = p ∨ q ∈ l)
  | [] => by simp [insIdxKey]
  | r :: rest => by
    by_cases h : keyNum p.1 ≤ keyNum r.1
    · simp [insIdxKey, h]
    · simp only [insIdxKey, if_neg h, List.mem_cons, mem_insIdxKey (l := rest)]
      tauto

theorem mem_sortIdxKeys {q : String × Nat} :
    ∀ {l : List (String × Nat)}, (q ∈ sortIdxKeys l ↔ q ∈ l)
  | [] => Iff.rfl
  | r :: rest => by
    simp only [sortIdxKeys, mem_insIdxKey, List.mem_cons,
      mem_sortIdxKeys (l := rest)]

theorem mem_entriesOf {q : String × Nat} {m : List (String × Nat)} :
    q ∈ entriesOf m ↔ q ∈ m := by
  unfold entriesOf
  rw [List.mem_append, mem_sortIdxKeys]
  constructor
  · rintro (h | h) <;> exact (List.mem_filter.mp h).1
  · intro h
    by_cases hq : isArrayIndex q.1 = true
    · exact Or.inl (List.mem_filter.mpr ⟨h, hq⟩)
    · refine Or.inr (List.mem_filter.mpr ⟨h, ?_⟩)
      simp [Bool.eq_false_iff.mpr hq]

theorem lookupN_eq_none_iff {m : List (String × Nat)} {t : String} :
    lookupN m t = none ↔ t ∉ m.map Prod.fst := by
  induction m with
  | nil => simp [lookupN]
  | cons p rest ih =>
    obtain ⟨k0, v⟩ := p
    simp only [lookupN, List.map_cons, List.mem_cons]
    by_cases h : k0 = t
    · subst h
      simp
    · rw [if_neg h, ih]
      constructor
      · intro hn
        rintro (h1 | h2)
        · exact h h1.symm
        · exact hn h2
      · intro hn h2
        exact hn (Or.inr h2)

theorem keys_bumpFreq (m : List (String × Nat)) (t : String) :
    (bumpFreq m t).map Prod.fst =
      if (lookupN m t).isSome then m.map Prod.fst
      else m.map Prod.fst ++ [t] := by
  induction m with
  | nil => simp [bumpFreq, lookupN]
  | cons p rest ih =>
    obtain ⟨k0, v⟩ := p
    by_cases h : k0 = t
    · subst h
      simp [bumpFreq, lookupN]
    · simp only [bumpFreq, if_neg h, lookupN, List.map_cons, ih]
      by_cases hs : (lookupN rest t).isSome = true
      · rw [if_pos hs, if_pos hs]
      · rw [if_neg hs, if_neg hs]
        rfl

theorem nodup_keys_bumpFreq {m : List (String × Nat)} (t : String)
    (h : (m.map Prod.fst).Nodup) : ((bumpFreq m t).map Prod.fst).Nodup := by
  rw [keys_bumpFreq]
  by_cases hs : (lookupN m t).isSome = true
  · rw [if_pos hs]
    exact h
  · rw [if_neg hs]
    have hmem : t ∉ m.map Prod.fst :=
      lookupN_eq_none_iff.mp (Option.not_isSome_iff_eq_none.mp hs)
    rw [List.nodup_append]
    exact ⟨h, List.nodup_singleton t, by
      intro a ha hb
      rw [List.mem_singleton] at hb
      subst hb
      exact hmem ha⟩

theorem nodup_keys_freq_fold : ∀ (ms : List TMatch)
    (m0 : List (String × Nat)), (m0.map Prod.fst).Nodup →
    (((ms.foldl (fun a m => bumpFreq a m.target) m0)).map Prod.fst).Nodup
  | [], _, h => h
  | m :: rest, m0, h => by
    rw [List.foldl_cons]
    exact nodup_keys_freq_fold rest _ (nodup_keys_bumpFreq m.target h)

theorem nodup_keys_freqMapOf (ms : List TMatch) :
    ((freqMapOf ms).map Prod.fst).Nodup :=
  nodup_keys_freq_fold ms [] List.nodup_nil

theorem lookupN_of_mem_nodup : ∀ {m : List (String × Nat)} {k : String}
    {v : Nat}, (k, v) ∈ m → ((m.map Prod.fst).Nodup) → lookupN m k = some v := by
  intro m
  induction m with
  | nil => intro k v hmem _; cases hmem
  | cons p rest ih =>
    intro k v hmem hnd
    obtain ⟨k0, v0⟩ := p
    rw [List.map_cons, List.nodup_cons] at hnd
    rcases List.mem_cons.mp hmem with heq | hmem2
    · injection heq with h1 h2
      subst h1; subst h2
      simp [lookupN]
    · by_cases h : k0 = k
      · subst h
        exact absurd (List.mem_map.mpr ⟨(k0, v), hmem2, rfl⟩) hnd.1
      · simp only [lookupN, if_neg h]
        exact ih hmem2 hnd.2

/-! ### Score map semantics: the last write wins -/

theorem lookupQopt_setScore (m : List (String × ℚ)) (t k : String) (v : ℚ) :
    lookupQopt (setScore m t v) k =
      if k = t then some v else lookupQopt m k := by
  induction m with
  | nil =>
    by_cases hk : k = t
    · subst hk
      simp [setScore, lookupQopt]
    · simp [setScore, lookupQopt, Ne.symm hk, hk]
  | cons p rest ih =>
    obtain ⟨k0, v0⟩ := p
    by_cases h0 : k0 = t
    · subst h0
      by_cases hk : k0 = k
      · subst hk
        simp [setScore, lookupQopt]
      · have hk2 : k ≠ k0 := Ne.symm hk
        simp [setScore, lookupQopt, hk, hk2]
    · by_cases hk : k0 = k
      · subst hk
        have hkt : k0 ≠ t := h0
        simp [setScore, lookupQopt, h0, hkt, Ne.symm hkt]
      · simp only [setScore, if_neg h0, lookupQopt, if_neg hk, ih]

theorem score_fold_lookup : ∀ (ms : List TMatch) (m0 : List (String × ℚ))
    (k : String),
    lookupQopt (ms.foldl (fun a m => setScore a m.target m.score) m0) k =
      match lastScoreOf k ms with
      | some q => some q
      | none => lookupQopt m0 k
  | [], m0, k => rfl
  | m :: rest, m0, k => by
    rw [List.foldl_cons, score_fold_lookup rest (setScore m0 m.target m.score) k]
    show _ = (match lastScoreOf k (m :: rest) with
      | some q => some q
      | none => lookupQopt m0 k)
    rw [lastScoreOf]
    rcases hrest : lastScoreOf k rest with _ | q
    · rw [lookupQopt_setScore]
      by_cases hk : k = m.target
      · rw [if_pos hk, if_pos (by simp [hk])]
      · rw [if_neg hk,
          if_neg (show ¬(m.target == k) = true by
            simp only [beq_iff_eq]
            exact fun h => hk h.symm)]
    · rfl

theorem scoreMapOf_lookup (ms : List TMatch) (k : String) :
    lookupQopt (scoreMapOf ms) k = lastScoreOf k ms := by
  unfold scoreMapOf
  rw [score_fold_lookup ms [] k]
  rcases lastScoreOf k ms with _ | q <;> rfl

theorem lookupQ_eq_getD (sm : List (String × ℚ)) (k : String) :
    lookupQ sm k = (lookupQopt sm k).getD 0 := by
  induction sm with
  | nil => rfl
  | cons p rest ih =>
    obtain ⟨k0, v⟩ := p
    by_cases h : k0 = k
    · simp [lookupQ, lookupQopt, h]
    · simp [lookupQ, lookupQopt, h, ih]

theorem lastScoreOf_isSome_of_count {k : String} :
    ∀ {ms : List TMatch}, 0 < countMatches k ms →
      (lastScoreOf k ms).isSome = true := by
  intro ms
  induction ms with
  | nil => intro h; simp [countMatches] at h
  | cons m rest ih =>
    intro h
    rw [lastScoreOf]
    rcases hrest : lastScoreOf k rest with _ | q
    · rw [countMatches_cons] at h
      have hcnt : countMatches k rest = 0 := by
        by_contra hc
        have := ih (Nat.pos_of_ne_zero hc)
        rw [hrest] at this
        cases this
      have htgt : m.target = k := by
        by_cases ht : m.target = k
        · exact ht
        · rw [hcnt, if_neg ht] at h
          omega
      rw [if_pos (by simp [htgt])]
      rfl
    · rfl

/-! ### Index map semantics: the first write wins, recording indexOf -/

theorem lookupIopt_append (m1 m2 : List (String × Int)) (k : String) :
    lookupIopt (m1 ++ m2) k =
      match lookupIopt m1 k with
      | some v => some v
      | none => lookupIopt m2 k := by
  induction m1 with
  | nil => rfl
  | cons p rest ih =>
    obtain ⟨k0, v0⟩ := p
    by_cases h : k0 = k
    · simp [lookupIopt, h]
    · show (if k0 = k then some v0 else lookupIopt (rest ++ m2) k) =
        match (if k0 = k then some v0 else lookupIopt rest k) with
        | some v => some v
        | none => lookupIopt m2 k
      rw [if_neg h, if_neg h, ih]

theorem lookupIopt_addIdx (cands : List (Option String))
    (m : List (String × Int)) (t k : String) :
    lookupIopt (addIdx cands m t) k =
      match lookupIopt m k with
      | some v => some v
      | none => if k = t then some (idxOfOpt cands t) else none := by
  unfold addIdx
  by_cases hs : (lookupIopt m t).isSome = true
  · rw [if_pos hs]
    rcases hk : lookupIopt m k with _ | v
    · by_cases hkt : k = t
      · subst hkt
        rw [hk] at hs
        cases hs
      · rw [if_neg hkt]
    · rfl
  · rw [if_neg hs, lookupIopt_append]
    rcases hk : lookupIopt m k with _ | v
    · show lookupIopt [(t, idxOfOpt cands t)] k = _
      by_cases hkt : k = t
      · subst hkt
        simp [lookupIopt]
      · simp [lookupIopt, Ne.symm hkt, hkt]
    · rfl

theorem idx_fold_lookup (cands : List (Option String)) :
    ∀ (ms : List TMatch) (m0 : List (String × Int)) (k : String),
    lookupIopt (ms.foldl (fun a m => addIdx cands a m.target) m0) k =
      match lookupIopt m0 k with
      | some v => some v
      | none => if 0 < countMatches k ms then some (idxOfOpt cands k) else none
  | [], m0, k => by
    show lookupIopt m0 k =
      match lookupIopt m0 k with
      | some v => some v
      | none => if 0 < countMatches k [] then some (idxOfOpt cands k) else none
    rcases lookupIopt m0 k with _ | v
    · simp [countMatches]
    · rfl
  | m :: rest, m0, k => by
    rw [List.foldl_cons, idx_fold_lookup cands rest (addIdx cands m0 m.target) k,
      lookupIopt_addIdx, countMatches_cons]
    rcases hm0 : lookupIopt m0 k with _ | v
    · by_cases hk : k = m.target
      · subst hk
        rw [if_pos rfl, if_pos rfl, if_pos (Nat.succ_pos _)]
      · rw [if_neg hk, if_neg (show ¬(m.target = k) from fun h => hk h.symm),
          Nat.add_zero]
    · rfl

theorem indexMapOf_lookup (ms : List TMatch) (cands : List (Option String))
    (k : String) :
    lookupIopt (indexMapOf ms cands) k =
      if 0 < countMatches k ms then some (idxOfOpt cands k) else none := by
  unfold indexMapOf
  rw [idx_fold_lookup cands ms [] k]
  rfl

theorem lookupI_eq_getD (im : List (String × Int)) (k : String) :
    lookupI im k = (lookupIopt im k).getD (-1) := by
  induction im with
  | nil => rfl
  | cons p rest ih =>
    obtain ⟨k0, v⟩ := p
    by_cases h : k0 = k
    · simp [lookupI, lookupIopt, h]
    · simp [lookupI, lookupIopt, h, ih]

theorem idxAux_isSome : ∀ {l : List (Option String)}
    {p : Option String → Bool}, (∃ c ∈ l, p c = true) → ∀ i,
    (idxAux p l i).isSome = true := by
  intro l
  induction l with
  | nil =>
    rintro p ⟨c, hc, _⟩
    cases hc
  | cons c0 cs ih =>
    rintro p ⟨c, hc, hp⟩ i
    by_cases h0 : p c0 = true
    · rw [idxAux, if_pos h0]
      rfl
    · rw [idxAux, if_neg h0]
      rcases List.mem_cons.mp hc with rfl | hc2
      · exact absurd hp h0
      · exact ih ⟨c, hc2, hp⟩ (i + 1)

theorem idxOfOpt_of_mem (cands : List (Option String)) (w : String)
    (h : some w ∈ cands) :
    ∃ n : Nat, idxAux (fun c => c == some w) cands 0 = some n ∧
      idxOfOpt cands w = n := by
  have hs := idxAux_isSome (l := cands) (p := fun c => c == some w)
    ⟨some w, h, by simp⟩ 0
  rcases hn : idxAux (fun c => c == some w) cands 0 with _ | n
  · rw [hn] at hs
    cases hs
  · refine ⟨n, rfl, ?_⟩
    unfold idxOfOpt
    rw [hn]

/-! ### The best-match target is a candidate -/

theorem bestGo_fst_lt : ∀ (rs : List ℚ) (i bi : Nat) (br : ℚ) (n : Nat),
    bi < n → i + rs.length ≤ n → (bestGo rs i bi br).1 < n
  | [], _, _, _, _, hbi, _ => hbi
  | r :: rest, i, bi, br, n, hbi, hlen => by
    rw [bestGo]
    by_cases h : br < r
    · rw [if_pos h]
      refine bestGo_fst_lt rest (i + 1) i r n ?_ ?_
      · simp only [List.length_cons] at hlen
        omega
      · simp only [List.length_cons] at hlen
        omega
    · rw [if_neg h]
      refine bestGo_fst_lt rest (i + 1) bi br n hbi ?_
      simp only [List.length_cons] at hlen
      omega

theorem seqOpts_eq_map : ∀ {l : List (Option String)} {xs : List String},
    seqOpts l = some xs → l = xs.map some
  | [], xs, h => by
    injection h with h2
    rw [← h2]
    rfl
  | none :: rest, xs, h => by cases h
  | some s :: rest, xs, h => by
    rcases hr : seqOpts rest with _ | ys
    · rw [seqOpts, hr] at h
      cases h
    · rw [seqOpts, hr] at h
      injection h with h2
      rw [← h2, List.map_cons]
      rw [seqOpts_eq_map hr]

theorem findBestMatch_target_mem {main : String}
    {cands : List (Option String)} {b : FBMBest}
    (h : findBestMatch main cands = some b) : some b.target ∈ cands := by
  rcases hs : seqOpts cands with _ | xs
  · rw [findBestMatch, hs] at h
    cases h
  · rcases xs with _ | ⟨t, ts⟩
    · rw [findBestMatch, hs] at h
      cases h
    · rw [findBestMatch, hs] at h
      injection h with h2
      have hlt : (bestGo (ts.map (compareTwoStrings main)) 1 0
          (compareTwoStrings main t)).1 < (t :: ts).length := by
        refine bestGo_fst_lt _ 1 0 _ _ (by simp) ?_
        simp only [List.length_map, List.length_cons]
        omega
      have hmem : (t :: ts).getD (bestGo (ts.map (compareTwoStrings main)) 1 0
          (compareTwoStrings main t)).1 t ∈ t :: ts := by
        rw [List.getD_eq_getElem?_getD, List.getElem?_eq_getElem hlt]
        exact List.getElem_mem _
      rw [← h2]
      rw [seqOpts_eq_map hs]
      exact List.mem_map.mpr ⟨_, hmem, rfl⟩

theorem tryRep_target_mem {r : Option String} {cands : List (Option String)}
    {x : TMatch} (h : tryRep r cands = some (some x)) :
    some x.target ∈ cands := by
  rcases r with _ | s
  · rw [tryRep] at h
    injection h with h2
    cases h2
  · rw [tryRep] at h
    by_cases hs : s = ""
    · rw [if_pos hs] at h
      injection h with h2
      cases h2
    · rw [if_neg hs] at h
      rcases hb : findBestMatch ((sanitizeTitle (some s)).getD "") cands with
        _ | b
      · rw [hb] at h
        cases h
      · rw [hb] at h
        injection h with h2
        injection h2 with h3
        rw [← h3]
        exact findBestMatch_target_mem hb

theorem buildMatches_target_mem {t : Title} {cands : List (Option String)}
    {ms : List TMatch} (h : buildMatches t cands = some ms) :
    ∀ m ∈ ms, some m.target ∈ cands := by
  rcases t with s | o
  · rw [buildMatches] at h
    rcases hb : findBestMatch ((sanitizeTitle (some s)).getD "") cands with
      _ | b
    · rw [hb] at h
      cases h
    · rw [hb] at h
      injection h with h2
      intro m hm
      rw [← h2] at hm
      rw [List.mem_singleton.mp hm]
      exact findBestMatch_target_mem hb
  · rw [buildMatches] at h
    rcases he : tryRep o.english cands with _ | me
    · rw [he] at h
      cases h
    · rcases hr : tryRep o.romaji cands with _ | mr
      · rw [he, hr] at h
        cases h
      · rcases hn : tryRep o.native cands with _ | mn
        · rw [he, hr, hn] at h
          cases h
        · rw [he, hr, hn] at h
          injection h with h2
          intro m hm
          rw [← h2] at hm
          rcases List.mem_append.mp hm with hm1 | hm2
          · rcases List.mem_append.mp hm1 with hm3 | hm4
            · rcases me with _ | x
              · cases hm3
              · rw [Option.toList_some, List.mem_singleton.mp hm3] at *
                exact tryRep_target_mem (by rw [he])
            · rcases mr with _ | x
              · cases hm4
              · rw [Option.toList_some, List.mem_singleton.mp hm4] at *
                exact tryRep_target_mem (by rw [hr])
          · rcases mn with _ | x
            · cases hm2
            · rw [Option.toList_some, List.mem_singleton.mp hm2] at *
              exact tryRep_target_mem (by rw [hn])

/-! ### Running FindBestMatchByTitles with a truthy title -/

theorem FindBestMatchByTitles_eq_of_truthy (t : Title)
    (results : List Entry) (h : titleFalsy (some t) = false) :
    FindBestMatchByTitles (some t) results =
      match buildMatches t (resultTitlesOf results) with
      | none => none
      | some ms => some (finishFBT ms (resultTitlesOf results)) := by
  unfold FindBestMatchByTitles
  rw [if_neg (by rw [h]; exact Bool.false_ne_true)]

theorem fbt_run_cases {t : Title} {results : List Entry} {r : FBTResult}
    (h : FindBestMatchByTitles (some t) results = some r)
    (hw : r.mostCommonMatch.isSome = true) :
    ∃ ms, buildMatches t (resultTitlesOf results) = some ms ∧
      r = finishFBT ms (resultTitlesOf results) := by
  by_cases htf : titleFalsy (some t) = true
  · rw [FindBestMatchByTitles, if_pos htf] at h
    injection h with h2
    rw [← h2] at hw
    cases hw
  · rw [FindBestMatchByTitles_eq_of_truthy t results
      (Bool.eq_false_iff.mpr htf)] at h
    rcases hb : buildMatches t (resultTitlesOf results) with _ | ms
    · rw [hb] at h
      cases h
    · rw [hb] at h
      injection h with h2
      exact ⟨ms, rfl, h2.symm⟩

theorem finishFBT_mostCommonMatch (ms : List TMatch)
    (cands : List (Option String)) :
    (finishFBT ms cands).mostCommonMatch =
      (pickWinner (entriesOf (freqMapOf ms)) (scoreMapOf ms)).1 := rfl

theorem finishFBT_similarityScore (ms : List TMatch)
    (cands : List (Option String)) :
    (finishFBT ms cands).similarityScore =
      (pickWinner (entriesOf (freqMapOf ms)) (scoreMapOf ms)).2.2 := rfl

theorem finishFBT_index (ms : List TMatch) (cands : List (Option String)) :
    (finishFBT ms cands).mostCommonMatchIndex =
      match (pickWinner (entriesOf (freqMapOf ms)) (scoreMapOf ms)).1 with
      | some t => if t = "" then -1 else lookupI (indexMapOf ms cands) t
      | none => -1 := rfl

theorem pickWinner_winner {es : List (String × Nat)}
    {sm : List (String × ℚ)} {w : String}
    (h : (pickWinner es sm).1 = some w) :
    ∃ f pre post, pickWinner es sm = (some w, f, lookupQ sm w) ∧
      es = pre ++ (w, f) :: post ∧ (∀ p ∈ pre, p.2 < f) ∧
      (∀ p ∈ es, p.2 ≤ f) := by
  rcases winFold_spec sm es none 0 0 with ⟨heq, _⟩ |
    ⟨w2, f, pre, post, heq, hsplit, _, hpre, hall⟩
  · rw [pickWinner] at h
    rw [heq] at h
    cases h
  · rw [pickWinner] at h ⊢
    rw [heq] at h ⊢
    injection h with h2
    subst h2
    exact ⟨f, pre, post, rfl, hsplit, hpre, hall⟩

/-- The winner's pair in the enumerated frequency map carries its occurrence
count, and the winner occurs in the matches array. -/
theorem winner_pair_count {ms : List TMatch} {w : String} {f : Nat}
    (hmem : (w, f) ∈ entriesOf (freqMapOf ms)) :
    f = countMatches w ms ∧ 0 < countMatches w ms := by
  have hmem2 : (w, f) ∈ freqMapOf ms := mem_entriesOf.mp hmem
  have hl : lookupN (freqMapOf ms) w = some f :=
    lookupN_of_mem_nodup hmem2 (nodup_keys_freqMapOf ms)
  rw [freqMapOf_lookup] at hl
  by_cases hc : 0 < countMatches w ms
  · rw [if_pos hc] at hl
    injection hl with h2
    exact ⟨h2.symm, hc⟩
  · rw [if_neg hc] at hl
    cases hl

theorem resultTitlesOf_of_all_defined {results : List Entry}
    (h : ∀ e ∈ results, e.title.isSome = true) :
    resultTitlesOf results = results.map (fun e => sanitizeTitle e.title) := by
  unfold resultTitlesOf
  rw [List.filter_eq_self.mpr (by
    intro a ha
    obtain ⟨e, he, rfl⟩ := List.mem_map.mp ha
    exact h e he), List.map_map]
  rfl

theorem lookupN_mem : ∀ {m : List (String × Nat)} {k : String} {v : Nat},
    lookupN m k = some v → (k, v) ∈ m := by
  intro m
  induction m with
  | nil => intro k v h; cases h
  | cons p rest ih =>
    intro k v h
    obtain ⟨k0, v0⟩ := p
    by_cases h0 : k0 = k
    · subst h0
      rw [lookupN, if_pos rfl] at h
      injection h with h2
      subst h2
      exact List.mem_cons_self _ _
    · rw [lookupN, if_neg h0] at h
      exact List.mem_cons_of_mem _ (ih h)

/-! ### Claim C1 -/

/-- C1 counterexample: the winner `"ab"` is produced by both the english and
the romaji representations (vote count 2); the score at its first occurrence
is 1 (english matches the candidate exactly), but the reported score is 2/3,
the score of the later romaji occurrence, because `scoreMap[target]` is
overwritten on every occurrence. -/
theorem c1_counterexample :
    FindBestMatchByTitles (some (Title.obj ⟨some "abx", some "ab", none⟩))
        [⟨some "ab", 0⟩] = some ⟨some "ab", 0, mkRat 2 3⟩ ∧
    buildMatches (Title.obj ⟨some "abx", some "ab", none⟩)
        (resultTitlesOf [⟨some "ab", 0⟩]) =
      some [⟨"ab", 1⟩, ⟨"ab", mkRat 2 3⟩] ∧
    mkRat 2 3 ≠ (1 : ℚ) :=
  ⟨by decide, by decide, by decide⟩

/-- C1 (amended): for a multi-representation title whose winner was produced
by more than one representation, the similarity score reported by
`FindBestMatchByTitles` is the score recorded at the winner's LAST occurrence
in the representation sequence (english, then romaji, then native), because
each occurrence overwrites the score map entry. -/
theorem c1_winner_score_is_last_occurrence (o : TitleObj)
    (results : List Entry) (r : FBTResult) (ms : List TMatch) (w : String)
    (hrun : FindBestMatchByTitles (some (Title.obj o)) results = some r)
    (hms : buildMatches (Title.obj o) (resultTitlesOf results) = some ms)
    (hw : r.mostCommonMatch = some w)
    (hmulti : 1 < countMatches w ms) :
    lastScoreOf w ms = some r.similarityScore := by
  obtain ⟨ms2, hms2, hr⟩ := fbt_run_cases hrun (by rw [hw]; rfl)
  rw [hms] at hms2
  injection hms2 with hms3
  subst hms3
  subst hr
  rw [finishFBT_mostCommonMatch] at hw
  obtain ⟨f, pre, post, hpick, hsplit, hpre, hall⟩ := pickWinner_winner hw
  rw [finishFBT_similarityScore, hpick]
  show lastScoreOf w ms = some (lookupQ (scoreMapOf ms) w)
  rw [lookupQ_eq_getD, scoreMapOf_lookup]
  have hsome := @lastScoreOf_isSome_of_count w ms (by omega)
  rcases hlast : lastScoreOf w ms with _ | q
  · rw [hlast] at hsome
    cases hsome
  · rfl

/-- C1 witness: on the counterexample input the reported score 2/3 is exactly
the last occurrence's score. -/
theorem c1_witness :
    lastScoreOf "ab" [⟨"ab", 1⟩, ⟨"ab", mkRat 2 3⟩] =
      some ((⟨some "ab", 0, mkRat 2 3⟩ : FBTResult).similarityScore) :=
  c1_winner_score_is_last_occurrence ⟨some "abx", some "ab", none⟩
    [⟨some "ab", 0⟩] ⟨some "ab", 0, mkRat 2 3⟩ [⟨"ab", 1⟩, ⟨"ab", mkRat 2 3⟩]
    "ab" (by decide) (by decide) rfl (by decide)

/-! ### Claim C4 -/

/-- C4 counterexample: with english target `"abc"` and romaji target `"99"`
tied at one vote each, the earliest representation in priority order is
english, so the claim says `"abc"` wins; but `Object.entries` enumerates the
canonical array-index key `"99"` before the insertion-ordered key `"abc"`,
so the code returns `"99"`. -/
theorem c4_counterexample :
    FindBestMatchByTitles (some (Title.obj ⟨some "99", some "abc", none⟩))
        [⟨some "abc", 0⟩, ⟨some "99", 1⟩] = some ⟨some "99", 1, 1⟩ ∧
    buildMatches (Title.obj ⟨some "99", some "abc", none⟩)
        (resultTitlesOf [⟨some "abc", 0⟩, ⟨some "99", 1⟩]) =
      some [⟨"abc", 1⟩, ⟨"99", 1⟩] ∧
    countMatches "abc" [⟨"abc", 1⟩, ⟨"99", 1⟩] =
      countMatches "99" [⟨"abc", 1⟩, ⟨"99", 1⟩] ∧
    ("99" : String) ≠ "abc" :=
  ⟨by decide, by decide, by decide, by decide⟩

/-- C4 (amended): the winner is the first key attaining the maximal
occurrence count in the `Object.entries` enumeration order of the tally:
canonical array-index keys first in ascending numeric order, then the
remaining keys in insertion order (which is first-occurrence order, i.e.
representation priority english, romaji, native).  Its count is maximal over
every target in the matches array; every key enumerated before it has a
strictly smaller count. -/
theorem c4_winner_first_max_in_enumeration_order (t : Title)
    (results : List Entry) (r : FBTResult) (ms : List TMatch) (w : String)
    (hrun : FindBestMatchByTitles (some t) results = some r)
    (hms : buildMatches t (resultTitlesOf results) = some ms)
    (hw : r.mostCommonMatch = some w) :
    ∃ f pre post,
      entriesOf (freqMapOf ms) = pre ++ (w, f) :: post ∧
      f = countMatches w ms ∧
      (∀ p ∈ pre, p.2 < f) ∧
      (∀ p ∈ entriesOf (freqMapOf ms), p.2 ≤ f) ∧
      (∀ m ∈ ms, countMatches m.target ms ≤ f) := by
  obtain ⟨ms2, hms2, hr⟩ := fbt_run_cases hrun (by rw [hw]; rfl)
  rw [hms] at hms2
  injection hms2 with hms3
  subst hms3
  subst hr
  rw [finishFBT_mostCommonMatch] at hw
  obtain ⟨f, pre, post, hpick, hsplit, hpre, hall⟩ := pickWinner_winner hw
  have hwmem : (w, f) ∈ entriesOf (freqMapOf ms) := by
    rw [hsplit]
    exact List.mem_append.mpr (Or.inr (List.mem_cons_self _ _))
  obtain ⟨hfc, hc⟩ := winner_pair_count hwmem
  refine ⟨f, pre, post, hsplit, hfc, hpre, hall, ?_⟩
  intro m hm
  have hcm : 0 < countMatches m.target ms := by
    refine List.countP_pos_iff.mpr ⟨m, hm, by simp⟩
  have hl : lookupN (freqMapOf ms) m.target =
      some (countMatches m.target ms) := by
    rw [freqMapOf_lookup, if_pos hcm]
  exact hall _ (mem_entriesOf.mpr (lookupN_mem hl))

/-- C4 witness: on the counterexample input the winner `"99"` is the first
maximal key in enumeration order. -/
theorem c4_witness :
    ∃ f pre post,
      entriesOf (freqMapOf [⟨"abc", 1⟩, ⟨"99", 1⟩]) =
        pre ++ ("99", f) :: post ∧
      f = countMatches "99" [⟨"abc", 1⟩, ⟨"99", 1⟩] ∧
      (∀ p ∈ pre, p.2 < f) ∧
      (∀ p ∈ entriesOf (freqMapOf [⟨"abc", 1⟩, ⟨"99", 1⟩]), p.2 ≤ f) ∧
      (∀ m ∈ ([⟨"abc", 1⟩, ⟨"99", 1⟩] : List TMatch),
        countMatches m.target [⟨"abc", 1⟩, ⟨"99", 1⟩] ≤ f) :=
  c4_winner_first_max_in_enumeration_order
    (Title.obj ⟨some "99", some "abc", none⟩)
    [⟨some "abc", 0⟩, ⟨some "99", 1⟩] ⟨some "99", 1, 1⟩
    [⟨"abc", 1⟩, ⟨"99", 1⟩] "99" (by decide) (by decide) rfl

/-! ### Claim C8 -/

/-- C8 counterexample: every candidate's title is defined, yet the returned
index is not the first position whose sanitized title equals the winning
target.  `" "` sanitizes to the empty string, every rating is 0, so the
winner is the empty string at position 0 — but the empty-string winner is
falsy, and the function returns −1 instead of 0. -/
theorem c8_counterexample :
    FindBestMatchByTitles (some (Title.str "abc"))
        [⟨some " ", 0⟩, ⟨some "zzz", 1⟩] = some ⟨some "", -1, 0⟩ ∧
    (∀ e ∈ [(⟨some " ", 0⟩ : Entry), ⟨some "zzz", 1⟩],
      e.title.isSome = true) ∧
    idxAux (fun c => c == some "")
        ([(⟨some " ", 0⟩ : Entry), ⟨some "zzz", 1⟩].map
          (fun e => sanitizeTitle e.title)) 0 = some 0 ∧
    (-1 : Int) ≠ (0 : Int) :=
  ⟨by decide, by decide, by decide, by decide⟩

/-- C8 (amended): the index is computed over the candidate list after
entries with undefined titles are filtered out.  When every title is defined
and the winning target is a non-empty string, the returned index is the first
position in the original candidate list whose sanitized title equals the
winner; when some titles are undefined, the index refers to the filtered
list, and `mapTitles`, which indexes the unfiltered list with it, can record
an entry other than the matched one (second conjunct: the group records the
undefined-title entry at position 0 although the match was the entry at
position 1). -/
theorem c8_index_over_filtered_candidates :
    (∀ (t : Title) (results : List Entry) (r : FBTResult) (ms : List TMatch)
        (w : String),
      FindBestMatchByTitles (some t) results = some r →
      buildMatches t (resultTitlesOf results) = some ms →
      r.mostCommonMatch = some w → w ≠ "" →
      (∀ e ∈ results, e.title.isSome = true) →
      ∃ n : Nat,
        idxAux (fun c => c == some w)
          (results.map (fun e => sanitizeTitle e.title)) 0 = some n ∧
        r.mostCommonMatchIndex = (n : Int)) ∧
    (mapTitles [[⟨some "abc", 0⟩], [⟨none, 1⟩, ⟨some "abc", 2⟩]] =
        some [⟨[("base", some ⟨some "abc", 0⟩), ("website2", some ⟨none, 1⟩)],
               some 1⟩] ∧
      sanitizeTitle (Entry.title ⟨none, 1⟩) ≠ some "abc" ∧
      sanitizeTitle (Entry.title ⟨some "abc", 2⟩) = some "abc") := by
  constructor
  · intro t results r ms w hrun hms hw hne hdef
    obtain ⟨ms2, hms2, hr⟩ := fbt_run_cases hrun (by rw [hw]; rfl)
    rw [hms] at hms2
    injection hms2 with hms3
    subst hms3
    subst hr
    rw [finishFBT_mostCommonMatch] at hw
    obtain ⟨f, pre, post, hpick, hsplit, hpre, hall⟩ := pickWinner_winner hw
    have hwmem : (w, f) ∈ entriesOf (freqMapOf ms) := by
      rw [hsplit]
      exact List.mem_append.mpr (Or.inr (List.mem_cons_self _ _))
    obtain ⟨hfc, hcnt⟩ := winner_pair_count hwmem
    have hmemc : some w ∈ resultTitlesOf results := by
      obtain ⟨m, hm, hmw⟩ := List.countP_pos_iff.mp hcnt
      simp only [beq_iff_eq] at hmw
      have hmem := buildMatches_target_mem hms m hm
      rw [← hmw]
      exact hmem
    obtain ⟨n, hn, hidx⟩ := idxOfOpt_of_mem (resultTitlesOf results) w hmemc
    refine ⟨n, ?_, ?_⟩
    · rw [← resultTitlesOf_of_all_defined hdef]
      exact hn
    · have hval : (finishFBT ms (resultTitlesOf results)).mostCommonMatchIndex =
          idxOfOpt (resultTitlesOf results) w := by
        rw [finishFBT_index, hpick]
        show (if w = "" then -1
          else lookupI (indexMapOf ms (resultTitlesOf results)) w) = _
        rw [if_neg hne, lookupI_eq_getD, indexMapOf_lookup, if_pos hcnt]
        rfl
      rw [hval, hidx]
  · exact ⟨by decide, by decide, by decide⟩

/-- C8 witness: with a single defined-title candidate the returned index 0 is
the first matching position. -/
theorem c8_witness :
    ∃ n : Nat,
      idxAux (fun c => c == some "ab")
        ([(⟨some "ab", 5⟩ : Entry)].map (fun e => sanitizeTitle e.title)) 0 =
        some n ∧
      (⟨some "ab", 0, 1⟩ : FBTResult).mostCommonMatchIndex = (n : Int) :=
  c8_index_over_filtered_candidates.1 (Title.str "ab") [⟨some "ab", 5⟩]
    ⟨some "ab", 0, 1⟩ [⟨"ab", 1⟩] "ab" (by decide) (by decide) rfl
    (by decide) (by decide)

/-! ### Running-minimum facts -/

theorem minInf_fold_acc_le : ∀ (cs : List ℚ) (x m : ℚ),
    cs.foldl minInf (some x) = some m → m ≤ x
  | [], x, m, h => by
    injection h with h2
    rw [h2]
  | q :: rest, x, m, h => by
    rw [List.foldl_cons] at h
    have := minInf_fold_acc_le rest (min x q) m h
    exact le_trans this (min_le_left x q)

theorem minInf_fold_le : ∀ (cs : List ℚ) (low : Option ℚ) (m : ℚ),
    cs.foldl minInf low = some m → ∀ q ∈ cs, m ≤ q
  | [], _, _, _, _, hq => by cases hq
  | q0 :: rest, low, m, h, q, hq => by
    rw [List.foldl_cons] at h
    rcases List.mem_cons.mp hq with rfl | hq2
    · rcases low with _ | x
      · exact minInf_fold_acc_le rest q m h
      · exact le_trans (minInf_fold_acc_le rest (min x q) m h)
          (min_le_right x q)
    · exact minInf_fold_le rest (minInf low q0) m h q hq2

theorem minInf_fold_mem : ∀ (cs : List ℚ) (low : Option ℚ) (m : ℚ),
    cs.foldl minInf low = some m → low = some m ∨ m ∈ cs
  | [], low, m, h => Or.inl h
  | q :: rest, low, m, h => by
    rw [List.foldl_cons] at h
    rcases minInf_fold_mem rest (minInf low q) m h with hl | hm
    · rcases low with _ | x
      · simp only [minInf] at hl
        injection hl with h2
        exact Or.inr (h2 ▸ List.mem_cons_self q rest)
      · simp only [minInf] at hl
        injection hl with h2
        rcases min_choice x q with hx | hq
        · exact Or.inl (by rw [← h2, hx])
        · refine Or.inr ?_
          rw [← h2, hq]
          exact List.mem_cons_self q rest
    · exact Or.inr (List.mem_cons_of_mem q hm)

theorem minInf_fold_isSome_of_acc : ∀ (cs : List ℚ) (low : Option ℚ),
    low.isSome = true → (cs.foldl minInf low).isSome = true
  | [], _, h => h
  | q :: rest, low, h => by
    rw [List.foldl_cons]
    refine minInf_fold_isSome_of_acc rest (minInf low q) ?_
    rcases low with _ | x <;> rfl

theorem minInf_fold_isSome : ∀ (cs : List ℚ), cs ≠ [] → ∀ (low : Option ℚ),
    (cs.foldl minInf low).isSome = true
  | [], h, _ => absurd rfl h
  | q :: rest, _, low => by
    rw [List.foldl_cons]
    refine minInf_fold_isSome_of_acc rest (minInf low q) ?_
    rcases low with _ | x <;> rfl

/-! ### The source loop computes the running minimum of contributed scores -/

theorem goSources_spec (t : String) : ∀ (os : List (List Entry)) (j : Nat)
    (acc : List (String × Option Entry)) (low : Option ℚ)
    (out : List (String × Option Entry) × Option ℚ),
    goSources t os j acc low = some out →
    ∃ cs, contribScores t os = some cs ∧
      out.2 = cs.foldl minInf low ∧
      out.1.length = acc.length + cs.length ∧
      ∃ add, out.1 = acc ++ add
  | [], j, acc, low, out, h => by
    injection h with h2
    rw [← h2]
    exact ⟨[], rfl, rfl, by simp, [], by simp⟩
  | other :: os, j, acc, low, out, h => by
    rw [goSources] at h
    rcases hfb : FindBestMatchByTitles (some (Title.str t)) other with _ | r
    · rw [hfb] at h
      cases h
    · rw [hfb] at h
      have h2 : (if r.mostCommonMatchIndex ≠ -1 then
          goSources t os (j + 1)
            (acc ++ [("website" ++ Nat.repr (j + 2),
              listGetOpt other r.mostCommonMatchIndex)])
            (minInf low r.similarityScore)
        else goSources t os (j + 1) acc low) = some out := h
      by_cases hidx : r.mostCommonMatchIndex ≠ -1
      · rw [if_pos hidx] at h2
        obtain ⟨cs, hcs, hout2, hlen, add, hadd⟩ :=
          goSources_spec t os (j + 1) _ _ out h2
        refine ⟨r.similarityScore :: cs, ?_, ?_, ?_, ?_⟩
        · rw [contribScores, hfb, hcs]
          simp [hidx]
        · rw [List.foldl_cons]
          exact hout2
        · rw [hlen]
          simp only [List.length_append, List.length_cons, List.length_nil]
          omega
        · refine ⟨("website" ++ Nat.repr (j + 2),
            listGetOpt other r.mostCommonMatchIndex) :: add, ?_⟩
          rw [hadd, List.append_assoc]
          rfl
      · rw [if_neg hidx] at h2
        obtain ⟨cs, hcs, hout2, hlen, add, hadd⟩ :=
          goSources_spec t os (j + 1) _ _ out h2
        refine ⟨cs, ?_, hout2, hlen, add, hadd⟩
        rw [contribScores, hfb, hcs]
        simp [hidx]

theorem goBase_mem_spec : ∀ (rest : List (List Entry)) (items : List Entry)
    (gs : List MatchGroup), goBase rest items = some gs → ∀ g ∈ gs,
    ∃ b t cs, g.data.head? = some ("base", some b) ∧ b.title = some t ∧
      contribScores t rest = some cs ∧ cs ≠ [] ∧
      g.score = cs.foldl minInf none
  | rest, [], gs, h => by
    injection h with h2
    rw [← h2]
    intro g hg
    cases hg
  | rest, b :: bs, gs, h => by
    rw [goBase] at h
    rcases hbt : b.title with _ | tt
    · rw [hbt] at h
      exact goBase_mem_spec rest bs gs h
    · rw [hbt] at h
      have hred : (if tt = "" then goBase rest bs
        else
          match goSources tt rest 0 [("base", some b)] none with
          | none => none
          | some (d, low) =>
            match goBase rest bs with
            | none => none
            | some gs2 =>
              some (if 1 < d.length then MatchGroup.mk d low :: gs2
                else gs2)) = some gs := h
      by_cases htt : tt = ""
      · rw [if_pos htt] at hred
        exact goBase_mem_spec rest bs gs hred
      · rw [if_neg htt] at hred
        rcases hgo : goSources tt rest 0 [("base", some b)] none with _ | out
        · rw [hgo] at hred
          cases hred
        · rw [hgo] at hred
          obtain ⟨d, low⟩ := out
          rcases hgs2 : goBase rest bs with _ | gs2
          · rw [hgs2] at hred
            cases hred
          · rw [hgs2] at hred
            injection hred with h2
            intro g hg
            rw [← h2] at hg
            by_cases hd : 1 < d.length
            · rw [if_pos hd] at hg
              rcases List.mem_cons.mp hg with rfl | hg2
              · obtain ⟨cs, hcs, hout2, hlen, add, hadd⟩ :=
                  goSources_spec tt rest 0 _ _ (d, low) hgo
                have hadd2 : d = [("base", some b)] ++ add := hadd
                have hlen2 : d.length = 1 + cs.length := hlen
                have hout3 : low = cs.foldl minInf none := hout2
                refine ⟨b, tt, cs, ?_, hbt, hcs, ?_, hout3⟩
                · show d.head? = _
                  rw [hadd2]
                  rfl
                · intro hnil
                  rw [hnil] at hlen2
                  simp only [List.length_nil] at hlen2
                  omega
              · exact goBase_mem_spec rest bs gs2 hgs2 g hg2
            · rw [if_neg hd] at hg
              exact goBase_mem_spec rest bs gs2 hgs2 g hg

/-! ### Claims C5 and C10 -/

/-- C5: every `MatchGroup` emitted by `mapTitles` reports as its score the
minimum of the per-source similarity scores recorded for its base entry (the
scores of the sources whose best match had index ≠ −1): the score is one of
the recorded scores and is below or equal to every one of them — the weakest
cross-source link, not an average. -/
theorem c5_group_score_is_minimum (ext : List (List Entry))
    (gs : List MatchGroup) (g : MatchGroup)
    (hrun : mapTitles ext = some gs) (hg : g ∈ gs) :
    ∃ base rest b t cs, ext = base :: rest ∧
      g.data.head? = some ("base", some b) ∧ b.title = some t ∧
      contribScores t rest = some cs ∧
      ∃ m : ℚ, g.score = some m ∧ (∀ q ∈ cs, m ≤ q) ∧ m ∈ cs := by
  rcases ext with _ | ⟨base, rest⟩
  · cases hrun
  · obtain ⟨b, t, cs, hhead, htitle, hcs, hne, hscore⟩ :=
      goBase_mem_spec rest base gs hrun g hg
    have hsome := minInf_fold_isSome cs hne none
    rcases hm : cs.foldl minInf none with _ | m
    · rw [hm] at hsome
      cases hsome
    · refine ⟨base, rest, b, t, cs, rfl, hhead, htitle, hcs, m,
        by rw [hscore, hm], minInf_fold_le cs none m hm, ?_⟩
      rcases minInf_fold_mem cs none m hm with hl | hmem
      · cases hl
      · exact hmem

/-- C5 witness: a three-source run whose two per-source scores are 1 and 2/3
yields a group scored with their minimum 2/3. -/
theorem c5_witness :
    ∃ base rest b t cs,
      ([[⟨some "ab", 0⟩], [⟨some "ab", 1⟩], [⟨some "abx", 2⟩]] :
        List (List Entry)) = base :: rest ∧
      (⟨[("base", some ⟨some "ab", 0⟩), ("website2", some ⟨some "ab", 1⟩),
          ("website3", some ⟨some "abx", 2⟩)], some (mkRat 2 3)⟩ :
        MatchGroup).data.head? = some ("base", some b) ∧
      b.title = some t ∧ contribScores t rest = some cs ∧
      ∃ m : ℚ,
        (⟨[("base", some ⟨some "ab", 0⟩), ("website2", some ⟨some "ab", 1⟩),
            ("website3", some ⟨some "abx", 2⟩)], some (mkRat 2 3)⟩ :
          MatchGroup).score = some m ∧ (∀ q ∈ cs, m ≤ q) ∧ m ∈ cs :=
  c5_group_score_is_minimum
    [[⟨some "ab", 0⟩], [⟨some "ab", 1⟩], [⟨some "abx", 2⟩]]
    [⟨[("base", some ⟨some "ab", 0⟩), ("website2", some ⟨some "ab", 1⟩),
       ("website3", some ⟨some "abx", 2⟩)], some (mkRat 2 3)⟩]
    ⟨[("base", some ⟨some "ab", 0⟩), ("website2", some ⟨some "ab", 1⟩),
      ("website3", some ⟨some "abx", 2⟩)], some (mkRat 2 3)⟩
    (by decide) (List.mem_singleton.mpr rfl)

/-- C10: no emitted `MatchGroup` carries the `Infinity` the running minimum
is initialized with (`none` in the model): a group is pushed only when at
least one non-base source contributed, so the recorded score list is
non-empty and the score is the fold of `Math.min` over it. -/
theorem c10_group_score_never_infinity (ext : List (List Entry))
    (gs : List MatchGroup) (g : MatchGroup)
    (hrun : mapTitles ext = some gs) (hg : g ∈ gs) :
    g.score ≠ none ∧
    ∃ base rest b t cs, ext = base :: rest ∧
      g.data.head? = some ("base", some b) ∧ b.title = some t ∧
      contribScores t rest = some cs ∧ cs ≠ [] ∧
      g.score = cs.foldl minInf none := by
  rcases ext with _ | ⟨base, rest⟩
  · cases hrun
  · obtain ⟨b, t, cs, hhead, htitle, hcs, hne, hscore⟩ :=
      goBase_mem_spec rest base gs hrun g hg
    have hsome := minInf_fold_isSome cs hne none
    constructor
    · intro hnone
      rw [hscore] at hnone
      rw [hnone] at hsome
      cases hsome
    · exact ⟨base, rest, b, t, cs, rfl, hhead, htitle, hcs, hne, hscore⟩

/-- C10 witness: the three-source run emits a group whose score is the fold
of the two recorded scores, not `Infinity`. -/
theorem c10_witness :
    (⟨[("base", some ⟨some "ab", 0⟩), ("website2", some ⟨some "ab", 1⟩),
        ("website3", some ⟨some "abx", 2⟩)], some (mkRat 2 3)⟩ :
      MatchGroup).score ≠ none ∧
    ∃ base rest b t cs,
      ([[⟨some "ab", 0⟩], [⟨some "ab", 1⟩], [⟨some "abx", 2⟩]] :
        List (List Entry)) = base :: rest ∧
      (⟨[("base", some ⟨some "ab", 0⟩), ("website2", some ⟨some "ab", 1⟩),
          ("website3", some ⟨some "abx", 2⟩)], some (mkRat 2 3)⟩ :
        MatchGroup).data.head? = some ("base", some b) ∧
      b.title = some t ∧ contribScores t rest = some cs ∧ cs ≠ [] ∧
      (⟨[("base", some ⟨some "ab", 0⟩), ("website2", some ⟨some "ab", 1⟩),
          ("website3", some ⟨some "abx", 2⟩)], some (mkRat 2 3)⟩ :
        MatchGroup).score = cs.foldl minInf none :=
  c10_group_score_never_infinity
    [[⟨some "ab", 0⟩], [⟨some "ab", 1⟩], [⟨some "abx", 2⟩]]
    [⟨[("base", some ⟨some "ab", 0⟩), ("website2", some ⟨some "ab", 1⟩),
       ("website3", some ⟨some "abx", 2⟩)], some (mkRat 2 3)⟩]
    ⟨[("base", some ⟨some "ab", 0⟩), ("website2", some ⟨some "ab", 1⟩),
      ("website3", some ⟨some "abx", 2⟩)], some (mkRat 2 3)⟩
    (by decide) (List.mem_singleton.mpr rfl)
